import Mathlib

/-!
# gocover: annotated coverage rendering

A shallow embedding of `main.go` (package `main` of gocover) and the
properties of its three pure cores:

* `percentage`  (main.go 52-63), the statement-weighted coverage ratio;
* `isMatch`     (main.go 65-73) and the selection loop of `main` (253-270);
* `showFile`    (main.go 108-166), the per-line marker splice.

Conventions of the embedding.

* A Go `string` is its byte sequence, `List UInt8`; `len(s)` is the list
  length and `s[a:b]` is `take`/`drop` on bytes.
* Go `int` values that are line numbers, column numbers and offsets are
  `Int`; every value the code computes from them stays far away from the
  limits of a machine word (the parser yields non-negative numbers and the
  code only subtracts one), so no wrap-around is involved.  The two running
  sums of `percentage` are different: they add arbitrary parsed counts, so
  there the two's-complement wrap of `+=` is modelled explicitly, for the
  64-bit `int` of amd64 and arm64.
* `float64` is modelled by its value: NaN, an infinity, or the rational
  number a finite float denotes.  Every operation (conversion from `int`,
  product, quotient) is rounded on its own to the nearest binary64 value, ties
  to even, as the Go compiler evaluates `100 * float64(x) / float64(y)`.  The
  sign of a zero is not tracked.
* A run-time panic (slice bounds out of range) is an explicit outcome,
  distinct from an `error` value returned by a function.
* The package-level colour variables `ansiReset`, `ansiCover`, `ansiUncover`
  are set once in `main` from the external `ansi` package; they are passed
  around as a record `Ansi`.
* `bufio.Scanner` is external: the source file is given as the sequence of
  lines the scanner yields, that is, the tokens returned by `scanner.Text()`
  while `scanner.Scan()` is true.  A token is the text of a line without its
  line terminator.  The sequence stops at the end of the file, and also at
  the first line that exceeds the scanner's token limit or at a read error:
  `showFile` never reads `scanner.Err()`, so it then returns `nil` like at the
  end of the file.  All statements about source lines are about this
  sequence.
-/

namespace Gocover

/-- A Go string: a sequence of bytes. -/
abbrev GoString := List UInt8

/-- The type `cover.ProfileBlock` of golang.org/x/tools/cover. -/
structure ProfileBlock where
  StartLine : Int
  StartCol : Int
  EndLine : Int
  EndCol : Int
  NumStmt : Int
  Count : Int
deriving DecidableEq, Repr

/-- The type `cover.Profile` of golang.org/x/tools/cover. -/
structure Profile where
  FileName : GoString
  Mode : GoString
  Blocks : List ProfileBlock
deriving DecidableEq, Repr

/-! ## `isMatch` and the selection loop -/

/-- The byte of an ASCII character produced by `Nat.digitChar`. -/
def charByte (c : Char) : UInt8 := UInt8.ofNat c.toNat

/-- Decimal rendering of a natural number, most significant digit first. -/
def natBytes (n : Nat) : GoString := (Nat.toDigits 10 n).map charByte

/-- The string `fmt.Sprintf("%d", i)`. -/
def sprintfD (i : Int) : GoString :=
  if i < 0 then 45 :: natBytes i.natAbs else natBytes i.natAbs

/-- The function `isMatch` (main.go 65-73): the loop over `args`. -/
def isMatchLoop (num filename : GoString) : List GoString → Bool
  | [] => false
  | arg :: rest =>
    if arg = num ∨ arg = filename then true else isMatchLoop num filename rest

/-- The function `isMatch` (main.go 65-73). -/
def isMatch (i : Int) (filename : GoString) (args : List GoString) : Bool :=
  let num := sprintfD i
  isMatchLoop num filename args

/-- The selection loop of `main` (main.go 253-270) in annotation mode, from
loop index `i` (0-based, as `range` yields it): the 1-based positions and the
profiles that pass the `isMatch` test, in order.  These are the profiles the
loop annotates (as long as no call of `showFile` ends the run). -/
def selectFrom (args : List GoString) : Int → List Profile → List (Int × Profile)
  | _, [] => []
  | i, profile :: rest =>
    let i1 := i + 1
    if !isMatch i1 profile.FileName args then selectFrom args (i + 1) rest
    else (i1, profile) :: selectFrom args (i + 1) rest

/-- The profiles selected by `main` for the selectors `args`. -/
def selected (args : List GoString) (profiles : List Profile) : List (Int × Profile) :=
  selectFrom args 0 profiles

/-- The number written by a string of decimal digits, read most significant
digit first (a byte `b` counting as the digit `b - '0'`). -/
def decimalValue (s : GoString) : Nat :=
  s.foldl (fun a b => 10 * a + (b.toNat - 48)) 0

/-- A profile with the file identifier `2`. -/
def profileNamed2 : Profile := { FileName := [50], Mode := [], Blocks := [] }

/-- A profile with the file identifier `b.go`. -/
def profileBGo : Profile := { FileName := [98, 46, 103, 111], Mode := [], Blocks := [] }

/-- A profile with the file identifier `a.go`. -/
def profileAGo : Profile := { FileName := [97, 46, 103, 111], Mode := [], Blocks := [] }

/-! ## `percentage` -/

/-- The value of a Go `float64`: NaN, an infinity with its sign, or the
rational number denoted by a finite float (the sign of zero is dropped). -/
inductive Float64 where
  | nan : Float64
  | inf (neg : Bool) : Float64
  | fin (q : ℚ) : Float64
deriving DecidableEq

/-- Rounding of a rational to the nearest integer, ties to the even one. -/
def roundHalfEven (s : ℚ) : ℤ :=
  let f := ⌊s⌋
  if s - f < 1 / 2 then f
  else if 1 / 2 < s - f then f + 1
  else if f % 2 = 0 then f else f + 1

/-- IEEE 754 binary64 rounding of an exact result, round-to-nearest-even:
53 significant bits, least exponent of the unit in the last place -1074
(subnormals), overflow to an infinity from 2^1024 on. -/
def Float64.round (q : ℚ) : Float64 :=
  if q = 0 then .fin 0
  else
    let e : ℤ := max (Int.log 2 |q| - 52) (-1074)
    let m : ℤ := roundHalfEven (|q| / 2 ^ e)
    let r : ℚ := m * 2 ^ e
    if 2 ^ 1024 ≤ r then .inf (decide (q < 0))
    else .fin (if q < 0 then -r else r)

/-- The conversion `float64(n)` of an `int`. -/
def Float64.ofInt (n : Int) : Float64 := Float64.round n

/-- The product `x * y` of two `float64` values. -/
def Float64.mul : Float64 → Float64 → Float64
  | .nan, _ => .nan
  | _, .nan => .nan
  | .inf s, .inf t => .inf (xor s t)
  | .inf s, .fin b => if b = 0 then .nan else .inf (xor s (decide (b < 0)))
  | .fin a, .inf t => if a = 0 then .nan else .inf (xor (decide (a < 0)) t)
  | .fin a, .fin b => Float64.round (a * b)

/-- The quotient `x / y` of two `float64` values. -/
def Float64.div : Float64 → Float64 → Float64
  | .nan, _ => .nan
  | _, .nan => .nan
  | .inf _, .inf _ => .nan
  | .inf s, .fin b => .inf (xor s (decide (b < 0)))
  | .fin _, .inf _ => .fin 0
  | .fin a, .fin b =>
    if b = 0 then (if a = 0 then .nan else .inf (decide (a < 0)))
    else Float64.round (a / b)

/-- The result of an `int` addition on a 64-bit platform: the sum reduced to
the two's-complement range from -2^63 up to 2^63 - 1. -/
def wrapInt (x : Int) : Int := (x + 2 ^ 63) % 2 ^ 64 - 2 ^ 63

/-- The loop of `percentage` (main.go 56-61) from the running values of
`statements` and `covered`; returns the final `(statements, covered)`. -/
def percentageLoop : List ProfileBlock → Int → Int → Int × Int
  | [], statements, covered => (statements, covered)
  | block :: rest, statements, covered =>
    let covered1 := if block.Count > 0 then wrapInt (covered + block.NumStmt) else covered
    let statements1 := wrapInt (statements + block.NumStmt)
    percentageLoop rest statements1 covered1

/-- The function `percentage` (main.go 52-63). -/
def percentage (profile : Profile) : Float64 :=
  let r := percentageLoop profile.Blocks 0 0
  let statements := r.1
  let covered := r.2
  Float64.div (Float64.mul (Float64.fin 100) (Float64.ofInt covered)) (Float64.ofInt statements)

/-! ## `showFile` -/

/-- The colour escape sequences held by the package-level variables
`ansiReset`, `ansiCover` and `ansiUncover`. -/
structure Ansi where
  Reset : GoString
  Cover : GoString
  Uncover : GoString
deriving DecidableEq, Repr

/-- The result of running a piece of code that may hit a run-time panic. -/
inductive Exec (α : Type) where
  | done (a : α) : Exec α
  | panic : Exec α
deriving DecidableEq, Repr

/-- The map `lines` of `showFile`, a `map[int][]*cover.ProfileBlock`, read
with the comma-ok form: `none` is an absent key. -/
abbrev LineMap := Int → Option (List ProfileBlock)

/-- The statement `lines[k] = append(lines[k], block)`. -/
def appendAt (lines : LineMap) (k : Int) (block : ProfileBlock) : LineMap :=
  fun j => if j = k then some ((lines k).getD [] ++ [block]) else lines j

/-- The body of the grouping loop (main.go 117-122). -/
def groupStep (lines : LineMap) (block : ProfileBlock) : LineMap :=
  let lines1 :=
    if block.StartLine ≠ block.EndLine then appendAt lines block.StartLine block else lines
  appendAt lines1 block.EndLine block

/-- The line grouping of `showFile` (main.go 114-123). -/
def groupLines (blocks : List ProfileBlock) : LineMap :=
  blocks.foldl groupStep (fun _ => none)

/-- The per-line state of `showFile`: the slice `keys` and the map `marks`
(a `map[int]string`, an absent key reading as the empty string). -/
structure LineMarkerSet where
  keys : List Int
  marks : Int → GoString

/-- The statement `marks[k] += s`. -/
def addMark (marks : Int → GoString) (k : Int) (s : GoString) : Int → GoString :=
  fun j => if j = k then marks k ++ s else marks j

/-- The body of the loop over the blocks of a line (main.go 141-152). -/
def markStep (c : Ansi) (i : Int) (st : LineMarkerSet) (block : ProfileBlock) :
    LineMarkerSet :=
  let st1 : LineMarkerSet :=
    if i = block.EndLine then
      { keys := st.keys ++ [block.EndCol - 1]
        marks := addMark st.marks (block.EndCol - 1) c.Reset }
    else st
  if i = block.StartLine then
    { keys := st1.keys ++ [block.StartCol - 1]
      marks := addMark st1.marks (block.StartCol - 1)
        (if block.Count = 0 then c.Uncover else c.Cover) }
  else st1

/-- The keys and marks recorded for line `i` (main.go 136-154). -/
def lineMarks (c : Ansi) (lines : LineMap) (i : Int) : LineMarkerSet :=
  match lines i with
  | some blocks => blocks.foldl (markStep c i) { keys := [], marks := fun _ => [] }
  | none => { keys := [], marks := fun _ => [] }

/-- The call `sort.Ints(keys)`: the ascending rearrangement of `keys`. -/
def sortInts (keys : List Int) : List Int := keys.insertionSort (· ≤ ·)

/-- The splice `line[:k] + marks[k] + line[k:]` (main.go 158); both slice
expressions panic unless `0 ≤ k ≤ len(line)`. -/
def spliceAt (marks : Int → GoString) (line : GoString) (k : Int) : Exec GoString :=
  if 0 ≤ k ∧ k ≤ line.length then
    .done (line.take k.toNat ++ marks k ++ line.drop k.toNat)
  else .panic

/-- The splice loop (main.go 157-159), entered with `n = i + 1` for the loop
variable `i`, which runs from `len(keys) - 1` down to `0`. -/
def spliceLoop (keys : List Int) (marks : Int → GoString) : Nat → GoString → Exec GoString
  | 0, line => .done line
  | n + 1, line =>
    match spliceAt marks line (keys.getD n 0) with
    | .done line1 => spliceLoop keys marks n line1
    | .panic => .panic

/-- The body of the scanning loop up to the `Printf` (main.go 134-159): the
text printed for source line `line` with line counter `i`. -/
def renderLine (c : Ansi) (lines : LineMap) (i : Int) (line : GoString) : Exec GoString :=
  let st := lineMarks c lines i
  let keys := sortInts st.keys
  spliceLoop keys st.marks keys.length line

/-- An `error` value returned by `findSource` or `os.Open`. -/
inductive OsError where
  | ErrNotExist : OsError
  | openFailed : OsError
deriving DecidableEq, Repr

/-- How a call of `showFile` ends: it returns (`nil` or an error) or the
goroutine panics. -/
inductive Outcome where
  | returned (err : Option OsError) : Outcome
  | panicked : Outcome
deriving DecidableEq, Repr

/-- What a call of `showFile` does: the lines written to standard output (each
is followed by a newline) and how the call ends. -/
structure Run where
  stdout : List GoString
  outcome : Outcome
deriving DecidableEq, Repr

/-- The scanning loop (main.go 132-165) from line counter `i`, with `out` the
lines printed so far. -/
def scanLoop (c : Ansi) (lines : LineMap) : Int → List GoString → List GoString → Run
  | _, [], out => { stdout := out, outcome := .returned none }
  | i, line :: rest, out =>
    match renderLine c lines i line with
    | .done line1 => scanLoop c lines (i + 1) rest (out ++ [line1])
    | .panic => { stdout := out, outcome := .panicked }

/-- The function `showFile` (main.go 108-166).  `source` is what `findSource`
and `os.Open` give: an error, or the lines of the file as the scanner yields
them (the successive values of `scanner.Text()`, up to the first call of
`scanner.Scan()` that returns false). -/
def showFile (c : Ansi) (source : Except OsError (List GoString)) (profile : Profile) : Run :=
  match source with
  | .error err => { stdout := [], outcome := .returned (some err) }
  | .ok src => scanLoop c (groupLines profile.Blocks) 1 src []

/-! ## Renderings described without the code -/

/-- A block touches line `n` when it starts or ends on it. -/
def touches (n : Int) (b : ProfileBlock) : Bool :=
  decide (b.StartLine = n) || decide (b.EndLine = n)

/-- The colour marker of a block: the uncovered colour for a hit count of 0,
the covered colour otherwise. -/
def colorOf (c : Ansi) (b : ProfileBlock) : GoString :=
  if b.Count = 0 then c.Uncover else c.Cover

/-- The markers one block records on line `n`, each with its offset: a reset
at `EndCol - 1` when the block ends on `n`, its colour at `StartCol - 1` when
it starts on `n`. -/
def blockRefs (c : Ansi) (n : Int) (b : ProfileBlock) : List (Int × GoString) :=
  (if n = b.EndLine then [(b.EndCol - 1, c.Reset)] else [])
    ++ (if n = b.StartLine then [(b.StartCol - 1, colorOf c b)] else [])

/-- The markers recorded on line `n` by the blocks of a profile, each with its
offset, in profile order. -/
def recorded (c : Ansi) (n : Int) (blocks : List ProfileBlock) : List (Int × GoString) :=
  blocks.flatMap (blockRefs c n)

/-- The offsets recorded on line `n`: `EndCol - 1` for each block ending on
`n` and `StartCol - 1` for each block starting on `n`. -/
def recordedOffsets (n : Int) (blocks : List ProfileBlock) : List Int :=
  blocks.flatMap fun b =>
    (if n = b.EndLine then [b.EndCol - 1] else [])
      ++ (if n = b.StartLine then [b.StartCol - 1] else [])

/-- The markers of `refs` recorded at offset `k`, concatenated in order. -/
def accum (refs : List (Int × GoString)) (k : Int) : GoString :=
  ((refs.filter fun r => decide (r.1 = k)).map Prod.snd).flatten

/-- The Go slice expression `L[a:b]`, for `0 ≤ a ≤ b ≤ len(L)`. -/
def slice (L : GoString) (a b : Nat) : GoString := (L.drop a).take (b - a)

/-- The text `L[p:k1] ++ X1 ++ L[k1:k2] ++ X2 ++ ... ++ Xm ++ L[km:]` for the
insertions `(k1, X1), ..., (km, Xm)`: the bytes of `L` from offset `p` on, with
`Xj` inserted in front of offset `kj`. -/
def interleave (L : GoString) : Nat → List (Int × GoString) → GoString
  | p, [] => L.drop p
  | p, (k, X) :: rest => slice L p k.toNat ++ X ++ interleave L k.toNat rest

/-- Consecutive insertions at one offset merged into a single insertion of
the concatenated texts. -/
def mergeAdj : List (Int × GoString) → List (Int × GoString)
  | [] => []
  | (k, X) :: rest =>
    match mergeAdj rest with
    | [] => [(k, X)]
    | (k2, Y) :: rest2 =>
      if k = k2 then (k, X ++ Y) :: rest2 else (k, X) :: (k2, Y) :: rest2

/-- A text that is a concatenation of one or more of the three marker strings
and of nothing else. -/
def IsMarkerText (c : Ansi) (X : GoString) : Prop :=
  ∃ ms : List GoString, ms ≠ [] ∧ (∀ m ∈ ms, m = c.Reset ∨ m = c.Cover ∨ m = c.Uncover)
    ∧ X = ms.flatten

/-- The splices of the loop of main.go 157-159 for the keys in the order they
are visited. -/
def spliceList (marks : Int → GoString) : List Int → GoString → Exec GoString
  | [], line => .done line
  | k :: ks, line =>
    match spliceAt marks line k with
    | .done line1 => spliceList marks ks line1
    | .panic => .panic

/-- A list as the value of a map entry: no entry for the empty list. -/
def optList (l : List ProfileBlock) : Option (List ProfileBlock) :=
  match l with
  | [] => none
  | _ :: _ => some l

/-- The sum `T` of the statement counts of all blocks. -/
def totalStmts (blocks : List ProfileBlock) : Int :=
  (blocks.map fun b => b.NumStmt).sum

/-- The sum `C` of the statement counts of the blocks with a hit count above 0. -/
def coveredStmts (blocks : List ProfileBlock) : Int :=
  ((blocks.filter fun b => decide (b.Count > 0)).map fun b => b.NumStmt).sum

/-! ## Sample data -/

/-- Two blocks of 2^62 statements each, the first one hit. -/
def overflowBlocks : List ProfileBlock :=
  [{ StartLine := 1, StartCol := 1, EndLine := 1, EndCol := 2,
     NumStmt := 4611686018427387904, Count := 1 },
   { StartLine := 2, StartCol := 1, EndLine := 2, EndCol := 2,
     NumStmt := 4611686018427387904, Count := 0 }]

/-- One block of 360287970189643 statements, hit once. -/
def roundingBlocks : List ProfileBlock :=
  [{ StartLine := 1, StartCol := 1, EndLine := 1, EndCol := 2,
     NumStmt := 360287970189643, Count := 1 }]

/-- A block of 3 statements that was hit and a block of 1 statement that was
not. -/
def threeOfFourBlocks : List ProfileBlock :=
  [{ StartLine := 1, StartCol := 1, EndLine := 1, EndCol := 2, NumStmt := 3, Count := 7 },
   { StartLine := 2, StartCol := 1, EndLine := 2, EndCol := 2, NumStmt := 1, Count := 0 }]

/-- Sample escape sequences: `ESC[0m` for reset, `ESC[32m` for covered code and
`ESC[31m` for uncovered code. -/
def sampleAnsi : Ansi :=
  { Reset := [27, 91, 48, 109], Cover := [27, 91, 51, 50, 109], Uncover := [27, 91, 51, 49, 109] }

/-- The line `abcdefghijkl`. -/
def sampleLine : GoString := [97, 98, 99, 100, 101, 102, 103, 104, 105, 106, 107, 108]

/-- An uncovered block on line 1, columns 5 to 10. -/
def blockCols5To10 : ProfileBlock :=
  { StartLine := 1, StartCol := 5, EndLine := 1, EndCol := 10, NumStmt := 1, Count := 0 }

/-- An uncovered block on line 1, columns 2 to 4. -/
def blockCols2To4 : ProfileBlock :=
  { StartLine := 1, StartCol := 2, EndLine := 1, EndCol := 4, NumStmt := 1, Count := 0 }

/-- A covered block on line 1, columns 4 to 6, adjacent to `blockCols2To4`. -/
def blockCols4To6 : ProfileBlock :=
  { StartLine := 1, StartCol := 4, EndLine := 1, EndCol := 6, NumStmt := 1, Count := 3 }

/-- A covered block on line 1, columns 7 to 9. -/
def blockCols7To9 : ProfileBlock :=
  { StartLine := 1, StartCol := 7, EndLine := 1, EndCol := 9, NumStmt := 2, Count := 1 }

/-- A block on line 1 whose end column 20 lies beyond `sampleLine`. -/
def blockEndCol20 : ProfileBlock :=
  { StartLine := 1, StartCol := 1, EndLine := 1, EndCol := 20, NumStmt := 1, Count := 1 }

/-! # Properties -/

/-! ## Decimal rendering -/

theorem charByte_digitChar (d : Nat) (hd : d < 10) :
    (charByte (Nat.digitChar d)).toNat - 48 = d := by
  interval_cases d <;> decide

theorem foldl_toDigitsCore (fuel : Nat) : ∀ (n : Nat) (acc : List Char), n < fuel →
    ((Nat.toDigitsCore 10 fuel n acc).map charByte).foldl
        (fun a b => 10 * a + (b.toNat - 48)) 0
      = (acc.map charByte).foldl (fun a b => 10 * a + (b.toNat - 48)) n := by
  induction fuel with
  | zero => intro n acc h; omega
  | succ fuel ih =>
    intro n acc h
    have hd : (charByte (Nat.digitChar (n % 10))).toNat - 48 = n % 10 :=
      charByte_digitChar _ (Nat.mod_lt _ (by norm_num))
    unfold Nat.toDigitsCore
    by_cases h0 : n / 10 = 0
    · have hn : n % 10 = n := by omega
      simp only [h0, if_true, List.map_cons, List.foldl_cons, hd]
      congr 1
      omega
    · have hlt : n / 10 < fuel := by omega
      simp only [h0, if_false]
      rw [ih (n / 10) _ hlt]
      simp only [List.map_cons, List.foldl_cons, hd]
      congr 1
      omega

/-- The decimal string of a natural number denotes that number. -/
theorem decimalValue_natBytes (n : Nat) : decimalValue (natBytes n) = n := by
  unfold decimalValue natBytes Nat.toDigits
  rw [foldl_toDigitsCore (n + 1) n [] (Nat.lt_succ_self n)]
  simp

theorem natBytes_injective {m n : Nat} (h : natBytes m = natBytes n) : m = n := by
  have := congrArg decimalValue h
  simpa [decimalValue_natBytes] using this

theorem sprintfD_natCast (n : Nat) : sprintfD (n : Int) = natBytes n := by
  unfold sprintfD
  have : ¬ ((n : Int) < 0) := by omega
  simp [this]

theorem sprintfD_natCast_injective {m n : Nat} (h : sprintfD (m : Int) = sprintfD (n : Int)) :
    m = n := by
  rw [sprintfD_natCast, sprintfD_natCast] at h
  exact natBytes_injective h

/-! ## `isMatch` -/

theorem isMatchLoop_iff (num filename : GoString) (args : List GoString) :
    isMatchLoop num filename args = true ↔ ∃ arg ∈ args, arg = num ∨ arg = filename := by
  induction args with
  | nil => simp [isMatchLoop]
  | cons a rest ih =>
    unfold isMatchLoop
    by_cases h : a = num ∨ a = filename
    · simp only [h, if_true, true_iff]
      exact ⟨a, List.mem_cons_self _ _, h⟩
    · simp only [h, if_false, ih, List.mem_cons]
      constructor
      · rintro ⟨x, hx, hx2⟩
        exact ⟨x, Or.inr hx, hx2⟩
      · rintro ⟨x, hx | hx, hx2⟩
        · exact absurd (hx ▸ hx2) h
        · exact ⟨x, hx, hx2⟩

/-- C6. `isMatch i f args` is true exactly when some element of `args` is the
decimal string of `i` (the string `sprintfD i`, which for `i ≥ 0` is a digit
string denoting `i`) or is `f` itself; it is false for the empty selector
list. -/
theorem isMatch_iff (i : Int) (f : GoString) (args : List GoString) :
    (isMatch i f args = true ↔ ∃ arg ∈ args, arg = sprintfD i ∨ arg = f)
    ∧ isMatch i f [] = false
    ∧ decimalValue (sprintfD (i.toNat : Int)) = i.toNat := by
  refine ⟨isMatchLoop_iff _ _ _, rfl, ?_⟩
  rw [sprintfD_natCast, decimalValue_natBytes]

/-! ## The selection loop -/

theorem isMatch_single (i : Int) (f sel : GoString) :
    isMatch i f [sel] = true ↔ (sel = sprintfD i ∨ sel = f) := by
  have h := isMatchLoop_iff (sprintfD i) f [sel]
  simpa [isMatch] using h

theorem bool_eq_false_of_iff {b : Bool} {P : Prop} (h : b = true ↔ P) (hn : ¬ P) :
    b = false := by
  cases b
  · rfl
  · exact absurd (h.1 rfl) hn

theorem selectFrom_none (args : List GoString) : ∀ (l : List Profile) (i : Int),
    (∀ j (hj : j < l.length), isMatch (i + j + 1) (l[j]).FileName args = false) →
    selectFrom args i l = [] := by
  intro l
  induction l with
  | nil => intro i _; rfl
  | cons p rest ih =>
    intro i h
    have h0 := h 0 (by simp)
    simp only [List.getElem_cons_zero, Nat.cast_zero, add_zero] at h0
    unfold selectFrom
    simp only [h0, Bool.not_false, if_true]
    apply ih
    intro j hj
    have := h (j + 1) (by simpa using hj)
    simp only [List.getElem_cons_succ, Nat.cast_add, Nat.cast_one] at this
    rw [← this]
    congr 1
    ring

theorem selectFrom_single (args : List GoString) : ∀ (l : List Profile) (i : Int) (k : Nat)
    (hk : k < l.length),
    (∀ j (hj : j < l.length), isMatch (i + j + 1) (l[j]).FileName args = true ↔ j = k) →
    selectFrom args i l = [(i + k + 1, l[k])] := by
  intro l
  induction l with
  | nil => intro i k hk; simp at hk
  | cons p rest ih =>
    intro i k hk h
    have hshift : ∀ j (hj : j < rest.length) (hj2 : j + 1 < (p :: rest).length),
        isMatch (i + 1 + j + 1) (rest[j]).FileName args
          = isMatch (i + (j + 1 : Nat) + 1) ((p :: rest)[j + 1]).FileName args := by
      intro j hj hj2
      simp only [List.getElem_cons_succ, Nat.cast_add, Nat.cast_one]
      congr 1
      ring
    cases k with
    | zero =>
      have h0 := (h 0 (by simp)).2 rfl
      simp only [List.getElem_cons_zero, Nat.cast_zero, add_zero] at h0
      unfold selectFrom
      simp only [h0, Bool.not_true, List.getElem_cons_zero, Nat.cast_zero, add_zero]
      rw [selectFrom_none args rest (i + 1)]
      · simp
      · intro j hj
        have hj2 : j + 1 < (p :: rest).length := by simpa using hj
        rw [hshift j hj hj2]
        exact bool_eq_false_of_iff (h (j + 1) hj2) (by omega)
    | succ k =>
      have h0 : isMatch (i + 1) p.FileName args = false := by
        have := h 0 (by simp)
        simp only [List.getElem_cons_zero, Nat.cast_zero, add_zero] at this
        exact bool_eq_false_of_iff this (by omega)
      have hk2 : k < rest.length := by simpa using hk
      unfold selectFrom
      simp only [h0, Bool.not_false, if_true]
      rw [ih (i + 1) k hk2]
      · simp only [List.getElem_cons_succ, Nat.cast_add, Nat.cast_one]
        congr 2
        ring
      · intro j hj
        have hj2 : j + 1 < (p :: rest).length := by simpa using hj
        rw [hshift j hj hj2, h (j + 1) hj2]
        omega

/-- C7 (as stated) fails: in the sequence of the two profiles `2` and `b.go`,
whose identifiers are distinct, the selector `2` selects both profiles (the
first by its identifier, the second by its position) while the selector
`b.go` selects the second only. -/
theorem select_index_vs_name_counterexample :
    ([profileNamed2, profileBGo].map Profile.FileName).Nodup
    ∧ selected [sprintfD 2] [profileNamed2, profileBGo]
        = [(1, profileNamed2), (2, profileBGo)]
    ∧ selected [profileBGo.FileName] [profileNamed2, profileBGo] = [(2, profileBGo)]
    ∧ selected [sprintfD 2] [profileNamed2, profileBGo]
        ≠ selected [profileBGo.FileName] [profileNamed2, profileBGo] := by
  decide

/-- C7 (amended). In a sequence of profiles with pairwise distinct file
identifiers, let `k + 1` be a position such that no other profile's identifier
is the decimal string of `k + 1` and the identifier at that position is not
the decimal string of another position.  Then the selector that is the decimal
string of `k + 1` and the selector that is the identifier at position `k + 1`
select the same profiles: exactly the profile at position `k + 1`. -/
theorem select_index_eq_select_name (profiles : List Profile) (k : Nat)
    (hk : k < profiles.length)
    (hdistinct : (profiles.map Profile.FileName).Nodup)
    (hnum : ∀ j (hj : j < profiles.length), j ≠ k →
      (profiles[j]).FileName ≠ sprintfD ((k + 1 : Nat) : Int)
      ∧ (profiles[k]).FileName ≠ sprintfD ((j + 1 : Nat) : Int)) :
    selected [sprintfD ((k + 1 : Nat) : Int)] profiles = [(((k + 1 : Nat) : Int), profiles[k])]
    ∧ selected [(profiles[k]).FileName] profiles = [(((k + 1 : Nat) : Int), profiles[k])] := by
  have hcast : ∀ j : Nat, (0 : Int) + j + 1 = ((j + 1 : Nat) : Int) := by
    intro j; push_cast; ring
  constructor
  · have := selectFrom_single [sprintfD ((k + 1 : Nat) : Int)] profiles 0 k hk ?_
    · rw [hcast] at this; exact this
    · intro j hj
      rw [isMatch_single, hcast]
      constructor
      · rintro (h | h)
        · have := sprintfD_natCast_injective h
          omega
        · by_contra hne
          exact (hnum j hj hne).1 h.symm
      · rintro rfl
        exact Or.inl rfl
  · have := selectFrom_single [(profiles[k]).FileName] profiles 0 k hk ?_
    · rw [hcast] at this; exact this
    · intro j hj
      rw [isMatch_single, hcast]
      constructor
      · rintro (h | h)
        · by_contra hne
          exact (hnum j hj hne).2 h
        · have hk2 : k < (profiles.map Profile.FileName).length := by simpa using hk
          have hj2 : j < (profiles.map Profile.FileName).length := by simpa using hj
          have h1 : (profiles.map Profile.FileName)[k] = (profiles.map Profile.FileName)[j] := by
            simpa using h
          exact ((List.Nodup.getElem_inj_iff hdistinct).1 h1).symm
      · rintro rfl
        exact Or.inr rfl

/-- C7 (amended), at the sequence `a.go`, `b.go` and position 2: the selectors
`2` and `b.go` both select exactly the second profile. -/
theorem select_index_eq_select_name_witness :
    (1 < [profileAGo, profileBGo].length
      ∧ ([profileAGo, profileBGo].map Profile.FileName).Nodup
      ∧ profileAGo.FileName ≠ sprintfD 2 ∧ profileBGo.FileName ≠ sprintfD 1)
    ∧ selected [sprintfD 2] [profileAGo, profileBGo] = [(2, profileBGo)]
    ∧ selected [profileBGo.FileName] [profileAGo, profileBGo] = [(2, profileBGo)] :=
  ⟨by decide, select_index_eq_select_name [profileAGo, profileBGo] 1 (by decide) (by decide)
    (by
      intro j hj hne
      have hj2 : j < 2 := hj
      have h0 : j = 0 := by omega
      subst h0
      simp only [List.getElem_cons_zero, List.getElem_cons_succ]
      exact ⟨by decide, by decide⟩)⟩

/-! ## Line grouping -/

theorem optList_getD (l : List ProfileBlock) : (optList l).getD [] = l := by
  cases l <;> rfl

theorem optList_append_singleton (l : List ProfileBlock) (b : ProfileBlock) :
    optList (l ++ [b]) = some (l ++ [b]) := by
  cases l <;> rfl

theorem groupStep_filter (pre : List ProfileBlock) (b : ProfileBlock) :
    groupStep (fun j => optList (pre.filter (touches j))) b
      = fun j => optList ((pre ++ [b]).filter (touches j)) := by
  funext j
  unfold groupStep
  by_cases hse : b.StartLine = b.EndLine
  · by_cases hj : j = b.EndLine
    · subst hj
      simp [appendAt, hse, touches, List.filter_append, optList_getD, optList_append_singleton]
    · have hj2 : ¬ b.EndLine = j := fun h => hj h.symm
      simp [appendAt, hse, hj, hj2, touches, List.filter_append]
  · by_cases hj : j = b.EndLine
    · subst hj
      have hse2 : ¬ b.EndLine = b.StartLine := fun h => hse h.symm
      simp [appendAt, hse, hse2, touches, List.filter_append, optList_getD,
        optList_append_singleton]
    · have hj2 : ¬ b.EndLine = j := fun h => hj h.symm
      by_cases hs : j = b.StartLine
      · subst hs
        simp [appendAt, hse, hj, touches, List.filter_append, optList_getD,
          optList_append_singleton]
      · have hs2 : ¬ b.StartLine = j := fun h => hs h.symm
        simp [appendAt, hse, hj, hj2, hs, hs2, touches, List.filter_append]

theorem foldl_groupStep (blocks : List ProfileBlock) : ∀ pre : List ProfileBlock,
    blocks.foldl groupStep (fun j => optList (pre.filter (touches j)))
      = fun j => optList ((pre ++ blocks).filter (touches j)) := by
  induction blocks with
  | nil => intro pre; simp
  | cons b rest ih =>
    intro pre
    rw [List.foldl_cons, groupStep_filter, ih (pre ++ [b])]
    simp

/-- The map built by the grouping loop holds, for each line, the blocks that
start or end on it, in profile order, each once. -/
theorem groupLines_eq (blocks : List ProfileBlock) (n : Int) :
    groupLines blocks n = optList (blocks.filter (touches n)) := by
  have h := foldl_groupStep blocks []
  simp only [List.filter_nil, List.nil_append] at h
  have h2 : (fun _ : Int => optList []) = (fun _ : Int => (none : Option (List ProfileBlock))) := rfl
  unfold groupLines
  rw [← h2, h]

/-! ## Keys and marks of a line -/

theorem markStep_keys (c : Ansi) (n : Int) (st : LineMarkerSet) (b : ProfileBlock) :
    (markStep c n st b).keys = st.keys ++ (blockRefs c n b).map Prod.fst := by
  unfold markStep blockRefs
  split_ifs <;> simp

theorem accum_append (r1 r2 : List (Int × GoString)) (k : Int) :
    accum (r1 ++ r2) k = accum r1 k ++ accum r2 k := by
  simp [accum, List.filter_append]

theorem accum_nil (k : Int) : accum [] k = [] := rfl

theorem addMark_accum (m : Int → GoString) (k1 : Int) (s : GoString) (k : Int) :
    addMark m k1 s k = m k ++ accum [(k1, s)] k := by
  unfold addMark accum
  by_cases h : k = k1
  · subst h; simp
  · have h2 : ¬ k1 = k := fun e => h e.symm
    simp [h, h2]

theorem markStep_marks (c : Ansi) (n : Int) (st : LineMarkerSet) (b : ProfileBlock) (k : Int) :
    (markStep c n st b).marks k = st.marks k ++ accum (blockRefs c n b) k := by
  by_cases he : n = b.EndLine
  · by_cases hs : n = b.StartLine
    · simp only [markStep, blockRefs, if_pos he, if_pos hs]
      rw [addMark_accum, addMark_accum, accum_append, List.append_assoc]
      rfl
    · simp only [markStep, blockRefs, if_pos he, if_neg hs]
      rw [addMark_accum, List.append_nil]
  · by_cases hs : n = b.StartLine
    · simp only [markStep, blockRefs, if_neg he, if_pos hs]
      rw [addMark_accum, List.nil_append]
      rfl
    · simp only [markStep, blockRefs, if_neg he, if_neg hs]
      simp [accum_nil]

theorem foldl_markStep (c : Ansi) (n : Int) (bs : List ProfileBlock) :
    ∀ st : LineMarkerSet,
      (bs.foldl (markStep c n) st).keys = st.keys ++ (recorded c n bs).map Prod.fst
      ∧ ∀ k, (bs.foldl (markStep c n) st).marks k = st.marks k ++ accum (recorded c n bs) k := by
  induction bs with
  | nil => intro st; simp [recorded, accum]
  | cons b rest ih =>
    intro st
    obtain ⟨h1, h2⟩ := ih (markStep c n st b)
    refine ⟨?_, ?_⟩
    · rw [List.foldl_cons, h1, markStep_keys]
      simp [recorded]
    · intro k
      rw [List.foldl_cons, h2, markStep_marks]
      simp [recorded, accum_append]

theorem blockRefs_of_not_touches (c : Ansi) (n : Int) (b : ProfileBlock)
    (h : touches n b = false) : blockRefs c n b = [] := by
  unfold touches at h
  simp only [Bool.or_eq_false_iff, decide_eq_false_iff_not] at h
  have h1 : ¬ n = b.EndLine := fun e => h.2 e.symm
  have h2 : ¬ n = b.StartLine := fun e => h.1 e.symm
  simp [blockRefs, h1, h2]

theorem recorded_filter (c : Ansi) (n : Int) (blocks : List ProfileBlock) :
    recorded c n (blocks.filter (touches n)) = recorded c n blocks := by
  induction blocks with
  | nil => rfl
  | cons b rest ih =>
    unfold recorded at ih ⊢
    by_cases h : touches n b = true
    · simp [List.filter_cons, h, ih]
    · have h2 : touches n b = false := by simpa using h
      simp [List.filter_cons, h2, ih, blockRefs_of_not_touches c n b h2]

theorem lineMarks_eq (c : Ansi) (n : Int) (blocks : List ProfileBlock) :
    (lineMarks c (groupLines blocks) n).keys = (recorded c n blocks).map Prod.fst
    ∧ ∀ k, (lineMarks c (groupLines blocks) n).marks k = accum (recorded c n blocks) k := by
  unfold lineMarks
  rw [groupLines_eq]
  cases hf : blocks.filter (touches n) with
  | nil =>
    have : recorded c n blocks = [] := by
      rw [← recorded_filter, hf]; rfl
    simp [optList, this, accum]
  | cons b rest =>
    have h := foldl_markStep c n (b :: rest) { keys := [], marks := fun _ => [] }
    rw [← hf, recorded_filter] at h
    simp only [optList]
    rw [← hf]
    simpa using h

theorem recordedOffsets_eq (c : Ansi) (n : Int) (blocks : List ProfileBlock) :
    (recorded c n blocks).map Prod.fst = recordedOffsets n blocks := by
  unfold recorded recordedOffsets
  induction blocks with
  | nil => rfl
  | cons b rest ih =>
    rw [List.flatMap_cons, List.flatMap_cons, List.map_append, ih]
    congr 1
    unfold blockRefs
    split_ifs <;> simp

/-! ## The splice loop -/

theorem spliceList_append (marks : Int → GoString) (a b : List Int) : ∀ line : GoString,
    spliceList marks (a ++ b) line
      = match spliceList marks a line with
        | .done line1 => spliceList marks b line1
        | .panic => .panic := by
  induction a with
  | nil => intro line; rfl
  | cons k ks ih =>
    intro line
    simp only [List.cons_append, spliceList]
    cases spliceAt marks line k with
    | done l => exact ih l
    | panic => rfl

/-- The index loop visits the first `n` keys from the last to the first. -/
theorem spliceLoop_eq_spliceList (keys : List Int) (marks : Int → GoString) :
    ∀ (n : Nat) (line : GoString), n ≤ keys.length →
      spliceLoop keys marks n line = spliceList marks (keys.take n).reverse line := by
  intro n
  induction n with
  | zero => intro line _; rfl
  | succ n ih =>
    intro line hn
    have hlt : n < keys.length := hn
    have hget : keys.getD n 0 = keys[n] := by
      simp [List.getD, List.getElem?_eq_getElem hlt]
    have htake : (keys.take (n + 1)).reverse = keys[n] :: (keys.take n).reverse := by
      rw [List.take_succ, List.getElem?_eq_getElem hlt]
      simp
    rw [htake]
    simp only [spliceLoop, spliceList, hget]
    cases spliceAt marks line keys[n] with
    | done l => exact ih l (Nat.le_of_lt hlt)
    | panic => rfl

theorem take_append_take_drop (L : GoString) (p k : Nat) (h : p ≤ k) :
    L.take p ++ slice L p k = L.take k := by
  unfold slice
  have hk : k = p + (k - p) := by omega
  conv_rhs => rw [hk]
  rw [List.take_add]

/-- Splicing at the keys of an ascending list, last key first, builds the
interleaving of the line with the marks: the text in front of the least key
is never moved. -/
theorem spliceList_sorted (marks : Int → GoString) (L : GoString) :
    ∀ (keys : List Int) (p : Nat), keys.Sorted (· ≤ ·) →
      (∀ k ∈ keys, (p : Int) ≤ k ∧ k ≤ L.length) →
      spliceList marks keys.reverse L
        = .done (L.take p ++ interleave L p (keys.map fun k => (k, marks k))) := by
  intro keys
  induction keys with
  | nil => intro p _ _; simp [spliceList, interleave]
  | cons k ks ih =>
    intro p hs hb
    have hk := hb k (List.mem_cons_self _ _)
    have hs2 := List.sorted_cons.1 hs
    have hk0 : (0 : Int) ≤ k := le_trans (Int.ofNat_nonneg p) hk.1
    have hkl : k.toNat ≤ L.length := by omega
    have hpk : p ≤ k.toNat := by omega
    have hcast : ((k.toNat : Nat) : Int) = k := Int.toNat_of_nonneg hk0
    have ih2 := ih k.toNat hs2.2 (by
      intro j hj
      refine ⟨?_, (hb j (List.mem_cons_of_mem _ hj)).2⟩
      rw [hcast]
      exact hs2.1 j hj)
    rw [List.reverse_cons, spliceList_append, ih2]
    have hlen : (L.take k.toNat).length = k.toNat := by
      rw [List.length_take]; omega
    have hcond : 0 ≤ k ∧ k ≤ ((L.take k.toNat
        ++ interleave L k.toNat (ks.map fun k => (k, marks k))).length : Nat) := by
      refine ⟨hk0, ?_⟩
      rw [List.length_append, hlen]
      push_cast
      omega
    simp only [spliceList, spliceAt, if_pos hcond]
    congr 1
    rw [List.take_append_of_le_length (by omega), List.drop_append_of_le_length (by omega)]
    rw [List.take_of_length_le (by omega), List.drop_of_length_le (by omega)] 
    simp only [List.map_cons, interleave, List.nil_append]
    rw [← take_append_take_drop L p k.toNat hpk]
    simp [List.append_assoc]

/-- When every offset recorded on line `n` lies within the line, the line is
rendered as the interleaving of its text with the accumulated marks, one
insertion for each recorded key in ascending order. -/
theorem renderLine_eq (c : Ansi) (blocks : List ProfileBlock) (n : Int) (L : GoString)
    (hrange : ∀ k ∈ recordedOffsets n blocks, 0 ≤ k ∧ k ≤ L.length) :
    renderLine c (groupLines blocks) n L
      = .done (interleave L 0
          ((sortInts (recordedOffsets n blocks)).map
            fun k => (k, accum (recorded c n blocks) k))) := by
  obtain ⟨hkeys, hmarks⟩ := lineMarks_eq c n blocks
  have hm : (lineMarks c (groupLines blocks) n).marks
      = fun k => accum (recorded c n blocks) k := funext hmarks
  unfold renderLine
  simp only []
  rw [spliceLoop_eq_spliceList _ _ _ _ (le_refl _), List.take_length, hkeys, hm,
    recordedOffsets_eq]
  have hs : (sortInts (recordedOffsets n blocks)).Sorted (· ≤ ·) :=
    List.sorted_insertionSort _ _
  rw [spliceList_sorted _ L _ 0 hs]
  · simp
  · intro k hk
    have hk2 : k ∈ recordedOffsets n blocks := (List.mem_insertionSort _).1 hk
    simpa using hrange k hk2

/-! ## Merging the insertions made at one offset -/

theorem slice_self (L : GoString) (k : Nat) : slice L k k = [] := by
  simp [slice]

theorem interleave_mergeAdj (L : GoString) : ∀ (items : List (Int × GoString)) (p : Nat),
    interleave L p (mergeAdj items) = interleave L p items := by
  intro items
  induction items with
  | nil => intro p; rfl
  | cons it rest ih =>
    intro p
    obtain ⟨k, X⟩ := it
    unfold mergeAdj
    cases hm : mergeAdj rest with
    | nil =>
      have h := ih k.toNat
      rw [hm] at h
      simp only [interleave] at h ⊢
      rw [h]
    | cons it2 rest2 =>
      obtain ⟨k2, Y⟩ := it2
      have h := ih k.toNat
      rw [hm] at h
      by_cases hk : k = k2
      · subst hk
        simp only [if_true, interleave] at h ⊢
        rw [← h, slice_self]
        simp
      · simp only [if_neg hk]
        simp only [interleave] at h ⊢
        rw [← h]

theorem mergeAdj_keys : ∀ (items : List (Int × GoString)),
    (items.map Prod.fst).Sorted (· ≤ ·) →
    ((mergeAdj items).map Prod.fst).Sorted (· < ·)
    ∧ ∀ k, k ∈ (mergeAdj items).map Prod.fst ↔ k ∈ items.map Prod.fst := by
  intro items
  induction items with
  | nil => intro _; simp [mergeAdj]
  | cons it rest ih =>
    intro hs
    obtain ⟨k, X⟩ := it
    simp only [List.map_cons] at hs
    have hs2 := List.sorted_cons.1 hs
    obtain ⟨ih1, ih2⟩ := ih hs2.2
    unfold mergeAdj
    cases hm : mergeAdj rest with
    | nil =>
      rw [hm] at ih2
      refine ⟨by simp, ?_⟩
      intro j
      have := ih2 j
      simp only [List.map_nil, List.not_mem_nil, false_iff] at this
      simp [this]
    | cons it2 rest2 =>
      obtain ⟨k2, Y⟩ := it2
      rw [hm] at ih1 ih2
      simp only [List.map_cons] at ih1 ih2
      have ih1c := List.sorted_cons.1 ih1
      have hk2 : k2 ∈ rest.map Prod.fst := (ih2 k2).1 (List.mem_cons_self _ _)
      by_cases hk : k = k2
      · subst hk
        simp only [if_true, List.map_cons]
        refine ⟨ih1, ?_⟩
        intro j
        have := ih2 j
        simp only [List.mem_cons] at this ⊢
        tauto
      · simp only [if_neg hk, List.map_cons]
        have hlt : k < k2 := lt_of_le_of_ne (hs2.1 k2 hk2) hk
        refine ⟨?_, ?_⟩
        · refine List.sorted_cons.2 ⟨?_, ih1⟩
          intro j hj
          rcases List.mem_cons.1 hj with rfl | hj
          · exact hlt
          · exact lt_trans hlt (ih1c.1 j hj)
        · intro j
          have := ih2 j
          simp only [List.mem_cons] at this ⊢
          tauto

theorem mergeAdj_closed (P : GoString → Prop) (happ : ∀ X Y, P X → P Y → P (X ++ Y)) :
    ∀ (items : List (Int × GoString)), (∀ it ∈ items, P it.2) →
      ∀ it ∈ mergeAdj items, P it.2 := by
  intro items
  induction items with
  | nil => intro _ it hit; simp [mergeAdj] at hit
  | cons it0 rest ih =>
    intro h
    obtain ⟨k, X⟩ := it0
    have hX : P X := h (k, X) (List.mem_cons_self _ _)
    have ih2 := ih (fun it hit => h it (List.mem_cons_of_mem _ hit))
    unfold mergeAdj
    cases hm : mergeAdj rest with
    | nil =>
      intro it hit
      simp only [List.mem_singleton] at hit
      subst hit
      exact hX
    | cons it2 rest2 =>
      obtain ⟨k2, Y⟩ := it2
      rw [hm] at ih2
      have hY : P Y := ih2 (k2, Y) (List.mem_cons_self _ _)
      by_cases hk : k = k2
      · simp only [if_pos hk]
        intro it hit
        rcases List.mem_cons.1 hit with rfl | hit
        · exact happ X Y hX hY
        · exact ih2 it (List.mem_cons_of_mem _ hit)
      · simp only [if_neg hk]
        intro it hit
        rcases List.mem_cons.1 hit with rfl | hit
        · exact hX
        · exact ih2 it hit

/-! ## The text of the line survives the splices -/

theorem slice_append_drop (L : GoString) (p k : Nat) (h : p ≤ k) :
    slice L p k ++ L.drop k = L.drop p := by
  unfold slice
  have hk : k = p + (k - p) := by omega
  conv_lhs => rw [hk, ← List.drop_drop]
  simp

theorem length_slice (L : GoString) (p k : Nat) (hk : k ≤ L.length) :
    (slice L p k).length = k - p := by
  unfold slice
  rw [List.length_take, List.length_drop]
  omega

theorem interleave_sublist (L : GoString) : ∀ (items : List (Int × GoString)) (p : Nat),
    (items.map Prod.fst).Sorted (· ≤ ·) →
    (∀ k ∈ items.map Prod.fst, (p : Int) ≤ k ∧ k ≤ L.length) →
    (L.drop p).Sublist (interleave L p items)
    ∧ (interleave L p items).length
        = (L.length - p) + (items.map fun it => it.2.length).sum := by
  intro items
  induction items with
  | nil => intro p _ _; simp [interleave]
  | cons it rest ih =>
    intro p hs hb
    obtain ⟨k, X⟩ := it
    simp only [List.map_cons] at hs hb
    have hs2 := List.sorted_cons.1 hs
    have hk := hb k (List.mem_cons_self _ _)
    have hk0 : (0 : Int) ≤ k := le_trans (Int.ofNat_nonneg p) hk.1
    have hkl : k.toNat ≤ L.length := by omega
    have hpk : p ≤ k.toNat := by omega
    have hcast : ((k.toNat : Nat) : Int) = k := Int.toNat_of_nonneg hk0
    obtain ⟨ih1, ih2⟩ := ih k.toNat hs2.2 (by
      intro j hj
      refine ⟨?_, (hb j (List.mem_cons_of_mem _ hj)).2⟩
      rw [hcast]
      exact hs2.1 j hj)
    simp only [interleave, List.map_cons, List.sum_cons]
    constructor
    · rw [← slice_append_drop L p k.toNat hpk, List.append_assoc]
      exact List.Sublist.append (List.Sublist.refl _)
        (ih1.trans (List.sublist_append_right X _))
    · rw [List.length_append, List.length_append, ih2, length_slice L p k.toNat hkl]
      omega

theorem isMarkerText_append (c : Ansi) (X Y : GoString) (hX : IsMarkerText c X)
    (hY : IsMarkerText c Y) : IsMarkerText c (X ++ Y) := by
  obtain ⟨ms, hne, hms, rfl⟩ := hX
  obtain ⟨ms2, _, hms2, rfl⟩ := hY
  refine ⟨ms ++ ms2, by simp [hne], ?_, by simp⟩
  intro m hm
  rcases List.mem_append.1 hm with h | h
  · exact hms m h
  · exact hms2 m h

theorem recorded_marker (c : Ansi) (n : Int) (blocks : List ProfileBlock) :
    ∀ r ∈ recorded c n blocks, r.2 = c.Reset ∨ r.2 = c.Cover ∨ r.2 = c.Uncover := by
  intro r hr
  unfold recorded at hr
  obtain ⟨b, _, hb⟩ := List.mem_flatMap.1 hr
  unfold blockRefs colorOf at hb
  rcases List.mem_append.1 hb with h | h
  · split_ifs at h
    · rw [List.mem_singleton] at h; subst h; exact Or.inl rfl
    · simp at h
  · split_ifs at h
    · rw [List.mem_singleton] at h; subst h; exact Or.inr (Or.inr rfl)
    · rw [List.mem_singleton] at h; subst h; exact Or.inr (Or.inl rfl)
    · simp at h

theorem accum_isMarkerText (c : Ansi) (refs : List (Int × GoString)) (k : Int)
    (hrefs : ∀ r ∈ refs, r.2 = c.Reset ∨ r.2 = c.Cover ∨ r.2 = c.Uncover)
    (hk : k ∈ refs.map Prod.fst) : IsMarkerText c (accum refs k) := by
  obtain ⟨r, hr, hrk⟩ := List.mem_map.1 hk
  refine ⟨(refs.filter fun r : Int × GoString => decide (r.1 = k)).map Prod.snd, ?_, ?_, rfl⟩
  · intro h
    have hmem : r ∈ refs.filter fun r : Int × GoString => decide (r.1 = k) :=
      List.mem_filter.2 ⟨hr, by simpa using hrk⟩
    have h2 : r.2 ∈ (refs.filter fun r : Int × GoString => decide (r.1 = k)).map Prod.snd :=
      List.mem_map_of_mem _ hmem
    rw [h] at h2
    simp at h2
  · intro m hm
    obtain ⟨r2, hr2, rfl⟩ := List.mem_map.1 hm
    exact hrefs r2 (List.mem_filter.1 hr2).1

/-- C4. Whenever all offsets recorded on a line lie in `[0, len(L)]` (they
may coincide), the rendered line is
`L[0:k1] ++ X1 ++ L[k1:k2] ++ X2 ++ ... ++ Xm ++ L[km:]` with `k1 < ... < km`
the distinct recorded offsets and each `Xj` a concatenation of reset and colour
markers only; so `L` is a subsequence of the rendering and the other bytes of
the rendering are exactly those of the `Xj`. -/
theorem splice_preserves_text (c : Ansi) (blocks : List ProfileBlock) (n : Int)
    (L : GoString) (hrange : ∀ k ∈ recordedOffsets n blocks, 0 ≤ k ∧ k ≤ L.length) :
    ∃ (items : List (Int × GoString)) (rendered : GoString),
      renderLine c (groupLines blocks) n L = .done rendered
      ∧ rendered = interleave L 0 items
      ∧ (items.map Prod.fst).Sorted (· < ·)
      ∧ (∀ k, k ∈ items.map Prod.fst ↔ k ∈ recordedOffsets n blocks)
      ∧ (∀ it ∈ items, IsMarkerText c it.2)
      ∧ L.Sublist rendered
      ∧ rendered.length = L.length + (items.map fun it => it.2.length).sum := by
  have hmap : ((sortInts (recordedOffsets n blocks)).map
      fun k => (k, accum (recorded c n blocks) k)).map Prod.fst
        = sortInts (recordedOffsets n blocks) := by
    rw [List.map_map]
    exact List.map_id _
  have hsorted : (((sortInts (recordedOffsets n blocks)).map
      fun k => (k, accum (recorded c n blocks) k)).map Prod.fst).Sorted (· ≤ ·) := by
    rw [hmap]
    exact List.sorted_insertionSort _ _
  obtain ⟨hlt, hmem⟩ := mergeAdj_keys _ hsorted
  have hmem2 : ∀ k, k ∈ (mergeAdj ((sortInts (recordedOffsets n blocks)).map
      fun k => (k, accum (recorded c n blocks) k))).map Prod.fst
        ↔ k ∈ recordedOffsets n blocks := by
    intro k
    rw [hmem k, hmap]
    exact List.mem_insertionSort _
  have hsub := interleave_sublist L (mergeAdj ((sortInts (recordedOffsets n blocks)).map
      fun k => (k, accum (recorded c n blocks) k))) 0 hlt.le_of_lt (by
        intro k hk
        simpa using hrange k ((hmem2 k).1 hk))
  refine ⟨_, _, renderLine_eq c blocks n L hrange, (interleave_mergeAdj L _ 0).symm, hlt,
    hmem2, ?_, ?_, ?_⟩
  · apply mergeAdj_closed (IsMarkerText c) (isMarkerText_append c)
    intro it hit
    obtain ⟨k, hk, rfl⟩ := List.mem_map.1 hit
    apply accum_isMarkerText c _ k (recorded_marker c n blocks)
    rw [recordedOffsets_eq]
    exact (List.mem_insertionSort _).1 hk
  · rw [← interleave_mergeAdj L _ 0]
    simpa using hsub.1
  · rw [← interleave_mergeAdj L _ 0]
    simpa using hsub.2

/-- C4, on the line `abcdefghijkl` with the adjacent blocks `[2, 4)` and
`[4, 6)`, whose offsets coincide at 3. -/
theorem splice_preserves_text_witness :
    (∀ k ∈ recordedOffsets 1 [blockCols2To4, blockCols4To6],
      0 ≤ k ∧ k ≤ (sampleLine.length : Int))
    ∧ ∃ (items : List (Int × GoString)) (rendered : GoString),
      renderLine sampleAnsi (groupLines [blockCols2To4, blockCols4To6]) 1 sampleLine
        = .done rendered
      ∧ rendered = interleave sampleLine 0 items
      ∧ (items.map Prod.fst).Sorted (· < ·)
      ∧ (∀ k, k ∈ items.map Prod.fst ↔ k ∈ recordedOffsets 1 [blockCols2To4, blockCols4To6])
      ∧ (∀ it ∈ items, IsMarkerText sampleAnsi it.2)
      ∧ sampleLine.Sublist rendered
      ∧ rendered.length = sampleLine.length + (items.map fun it => it.2.length).sum :=
  ⟨by decide, splice_preserves_text sampleAnsi [blockCols2To4, blockCols4To6] 1 sampleLine
    (by decide)⟩

/-! ## Small cases of the sort and of the grouping -/

theorem sortInts_pair (a b : Int) (h : b < a) : sortInts [a, b] = [b, a] := by
  have h2 : ¬ a ≤ b := not_le.2 h
  simp [sortInts, List.insertionSort, List.orderedInsert, h2]

theorem recorded_of_filter_eq (c : Ansi) (n : Int) (blocks bs : List ProfileBlock)
    (h : blocks.filter (touches n) = bs) : recorded c n blocks = recorded c n bs := by
  rw [← recorded_filter, h]

/-! ## Pairwise distinct offsets -/

theorem accum_cons (r : Int × GoString) (refs : List (Int × GoString)) (k : Int) :
    accum (r :: refs) k = (if r.1 = k then r.2 else []) ++ accum refs k := by
  unfold accum
  by_cases h : r.1 = k <;> simp [List.filter_cons, h]

theorem accum_eq_nil (refs : List (Int × GoString)) (k : Int)
    (h : k ∉ refs.map Prod.fst) : accum refs k = [] := by
  induction refs with
  | nil => rfl
  | cons r rest ih =>
    simp only [List.map_cons, List.mem_cons, not_or] at h
    have h1 : ¬ r.1 = k := fun e => h.1 e.symm
    rw [accum_cons, if_neg h1, ih h.2]
    rfl

theorem accum_of_nodup (refs : List (Int × GoString)) (hnd : (refs.map Prod.fst).Nodup) :
    ∀ r ∈ refs, accum refs r.1 = r.2 := by
  induction refs with
  | nil => intro r hr; simp at hr
  | cons r0 rest ih =>
    intro r hr
    simp only [List.map_cons, List.nodup_cons] at hnd
    rw [accum_cons]
    rcases List.mem_cons.1 hr with rfl | hr
    · rw [if_pos rfl, accum_eq_nil rest _ hnd.1]
      simp
    · have hne : ¬ r0.1 = r.1 := by
        intro e
        exact hnd.1 (e ▸ List.mem_map_of_mem _ hr)
      rw [if_neg hne, ih hnd.2 r hr]
      rfl

theorem render_distinct (c : Ansi) (blocks : List ProfileBlock) (n : Int) (L : GoString)
    (hnodup : (recordedOffsets n blocks).Nodup)
    (hrange : ∀ k ∈ recordedOffsets n blocks, 0 ≤ k ∧ k ≤ L.length) :
    ∃ ps : List (Int × GoString), ps.Perm (recorded c n blocks)
      ∧ (ps.map Prod.fst).Sorted (· < ·)
      ∧ renderLine c (groupLines blocks) n L = .done (interleave L 0 ps) := by
  have hnd : ((recorded c n blocks).map Prod.fst).Nodup := by
    rw [recordedOffsets_eq]; exact hnodup
  refine ⟨(sortInts (recordedOffsets n blocks)).map
      fun k => (k, accum (recorded c n blocks) k), ?_, ?_, renderLine_eq c blocks n L hrange⟩
  · have h1 : ((recorded c n blocks).map Prod.fst).map
        (fun k => (k, accum (recorded c n blocks) k)) = recorded c n blocks := by
      rw [List.map_map]
      conv_rhs => rw [← List.map_id (recorded c n blocks)]
      apply List.map_congr_left
      intro r hr
      simp only [Function.comp, id]
      rw [accum_of_nodup _ hnd r hr]
    have h2 : (sortInts (recordedOffsets n blocks)).Perm
        ((recorded c n blocks).map Prod.fst) := by
      rw [recordedOffsets_eq]
      exact List.perm_insertionSort _ _
    have h3 := h2.map (fun k => (k, accum (recorded c n blocks) k))
    rw [h1] at h3
    exact h3
  · rw [List.map_map]
    have : (Prod.fst ∘ fun k => (k, accum (recorded c n blocks) k)) = (id : Int → Int) := rfl
    rw [this, List.map_id]
    have hs : (sortInts (recordedOffsets n blocks)).Sorted (· ≤ ·) :=
      List.sorted_insertionSort _ _
    exact hs.lt_of_le ((List.perm_insertionSort _ _).nodup_iff.2 hnodup)

theorem sorted_perm_unique (ps qs : List (Int × GoString)) (hp : ps.Perm qs)
    (h1 : (ps.map Prod.fst).Sorted (· < ·)) (h2 : (qs.map Prod.fst).Sorted (· < ·)) :
    ps = qs := by
  have hanti : IsAntisymm (Int × GoString) (fun a b => a.1 < b.1) :=
    ⟨fun a b hab hba => absurd (lt_trans hab hba) (lt_irrefl _)⟩
  have h1b : ps.Sorted (fun a b => a.1 < b.1) := List.pairwise_map.1 h1
  have h2b : qs.Sorted (fun a b => a.1 < b.1) := List.pairwise_map.1 h2
  exact List.eq_of_perm_of_sorted hp h1b h2b

theorem sortInts_disjoint (s1 e1 s2 e2 : Int) (h1 : s1 < e1) (h2 : e1 < s2) (h3 : s2 < e2) :
    sortInts [e1, s1, e2, s2] = [s1, e1, s2, e2] := by
  have a1 : ¬ e1 ≤ s1 := not_le.2 h1
  have a2 : ¬ e2 ≤ s2 := not_le.2 h3
  have a3 : ¬ s2 ≤ s1 := not_le.2 (lt_trans h1 h2)
  have a4 : ¬ s2 ≤ e1 := not_le.2 h2
  have a5 : ¬ e2 ≤ s1 := not_le.2 (lt_trans (lt_trans h1 h2) h3)
  have a6 : ¬ e2 ≤ e1 := not_le.2 (lt_trans h2 h3)
  have a7 : s1 ≤ s2 := (lt_trans h1 h2).le
  have a8 : e1 ≤ s2 := h2.le
  have a9 : s1 ≤ e1 := h1.le
  have a10 : s2 ≤ e2 := h3.le
  simp [sortInts, List.insertionSort, List.orderedInsert, a1, a2, a3, a4, a5, a6, a7, a8, a9,
    a10]

/-- Two single-line blocks `A = [s1, e1)` and `B = [s2, e2)` with
`s1 < e1 < s2 < e2`, alone on their line: each gets its own colour and reset,
and the region `L[e1-1:s2-1]` between them is left as it is. -/
theorem disjoint_blocks_render (c : Ansi) (blocks : List ProfileBlock) (A B : ProfileBlock)
    (n : Int) (L : GoString) (hA : A.StartLine = n ∧ A.EndLine = n)
    (hB : B.StartLine = n ∧ B.EndLine = n)
    (hcol : 1 ≤ A.StartCol ∧ A.StartCol < A.EndCol ∧ A.EndCol < B.StartCol
      ∧ B.StartCol < B.EndCol ∧ B.EndCol ≤ L.length + 1)
    (honly : blocks.filter (touches n) = [A, B]) :
    renderLine c (groupLines blocks) n L
      = .done (slice L 0 (A.StartCol - 1).toNat ++ colorOf c A
          ++ slice L (A.StartCol - 1).toNat (A.EndCol - 1).toNat ++ c.Reset
          ++ slice L (A.EndCol - 1).toNat (B.StartCol - 1).toNat ++ colorOf c B
          ++ slice L (B.StartCol - 1).toNat (B.EndCol - 1).toNat ++ c.Reset
          ++ L.drop (B.EndCol - 1).toNat) := by
  obtain ⟨h1, h2, h3, h4, h5⟩ := hcol
  have hrec : recorded c n blocks
      = [(A.EndCol - 1, c.Reset), (A.StartCol - 1, colorOf c A),
         (B.EndCol - 1, c.Reset), (B.StartCol - 1, colorOf c B)] := by
    rw [recorded_of_filter_eq c n blocks [A, B] honly]
    simp [recorded, blockRefs, hA.1, hA.2, hB.1, hB.2]
  have hoff : recordedOffsets n blocks
      = [A.EndCol - 1, A.StartCol - 1, B.EndCol - 1, B.StartCol - 1] := by
    rw [← recordedOffsets_eq c, hrec]
    rfl
  have n1 : ¬ A.EndCol - 1 = A.StartCol - 1 := by omega
  have n2 : ¬ A.StartCol - 1 = A.EndCol - 1 := by omega
  have n3 : ¬ B.EndCol - 1 = A.StartCol - 1 := by omega
  have n4 : ¬ B.EndCol - 1 = A.EndCol - 1 := by omega
  have n5 : ¬ A.EndCol - 1 = B.EndCol - 1 := by omega
  have n6 : ¬ A.StartCol - 1 = B.EndCol - 1 := by omega
  have n7 : ¬ B.StartCol - 1 = A.StartCol - 1 := by omega
  have n8 : ¬ B.StartCol - 1 = A.EndCol - 1 := by omega
  have n9 : ¬ B.StartCol - 1 = B.EndCol - 1 := by omega
  have n10 : ¬ A.StartCol - 1 = B.StartCol - 1 := by omega
  have n11 : ¬ A.EndCol - 1 = B.StartCol - 1 := by omega
  have n12 : ¬ B.EndCol - 1 = B.StartCol - 1 := by omega
  rw [renderLine_eq c blocks n L (by
    intro k hk
    rw [hoff] at hk
    simp only [List.mem_cons, List.mem_singleton, List.not_mem_nil, or_false] at hk
    rcases hk with rfl | rfl | rfl | rfl <;> constructor <;> omega)]
  rw [hoff, hrec, sortInts_disjoint _ _ _ _ (by omega) (by omega) (by omega)]
  simp only [List.map_cons, List.map_nil, interleave, accum_cons, accum_nil, if_neg n1,
    if_neg n2, if_neg n3, if_neg n4, if_neg n5, if_neg n6, if_neg n7, if_neg n8, if_neg n9,
    if_neg n10, if_neg n11, if_neg n12, if_true, List.nil_append, List.append_nil,
    List.append_assoc]

/-- C3. When the offsets recorded on line `n` are pairwise distinct and lie in
`[0, len(L)]` (columns being 1-based, no offset is negative), the rendered line
is `L` with exactly one marker inserted at each recorded offset (`ps` is a
rearrangement of the recorded markers by ascending offset) and the segments of
`L` in between unchanged; the rendering is the same for every order of the
blocks in the profile.  In particular, when the blocks touching the line are
two single-line blocks `A = [s1, e1)` and `B = [s2, e2)` with
`s1 < e1 < s2 < e2`, each gets its own colour and reset and the region
`L[e1-1:s2-1]` between them is unchanged. -/
theorem distinct_offsets_render (c : Ansi) (blocks : List ProfileBlock) (n : Int)
    (L : GoString) (hnodup : (recordedOffsets n blocks).Nodup)
    (hrange : ∀ k ∈ recordedOffsets n blocks, 0 ≤ k ∧ k ≤ L.length) :
    (∃ ps : List (Int × GoString), ps.Perm (recorded c n blocks)
      ∧ (ps.map Prod.fst).Sorted (· < ·)
      ∧ renderLine c (groupLines blocks) n L = .done (interleave L 0 ps))
    ∧ (∀ blocks2 : List ProfileBlock, blocks2.Perm blocks →
        renderLine c (groupLines blocks2) n L = renderLine c (groupLines blocks) n L)
    ∧ (∀ A B : ProfileBlock, blocks.filter (touches n) = [A, B] →
        A.StartLine = n ∧ A.EndLine = n → B.StartLine = n ∧ B.EndLine = n →
        1 ≤ A.StartCol ∧ A.StartCol < A.EndCol ∧ A.EndCol < B.StartCol
          ∧ B.StartCol < B.EndCol ∧ B.EndCol ≤ L.length + 1 →
        renderLine c (groupLines blocks) n L
          = .done (slice L 0 (A.StartCol - 1).toNat ++ colorOf c A
              ++ slice L (A.StartCol - 1).toNat (A.EndCol - 1).toNat ++ c.Reset
              ++ slice L (A.EndCol - 1).toNat (B.StartCol - 1).toNat ++ colorOf c B
              ++ slice L (B.StartCol - 1).toNat (B.EndCol - 1).toNat ++ c.Reset
              ++ L.drop (B.EndCol - 1).toNat)) := by
  obtain ⟨ps, hp, hs, hr⟩ := render_distinct c blocks n L hnodup hrange
  refine ⟨⟨ps, hp, hs, hr⟩, ?_, fun A B honly hA hB hcol =>
    disjoint_blocks_render c blocks A B n L hA hB hcol honly⟩
  intro blocks2 hperm
  have hoff : (recordedOffsets n blocks2).Perm (recordedOffsets n blocks) := by
    unfold recordedOffsets
    exact List.Perm.flatMap_right _ hperm
  have hrec : (recorded c n blocks2).Perm (recorded c n blocks) := by
    unfold recorded
    exact List.Perm.flatMap_right _ hperm
  obtain ⟨qs, hq, hsq, hrq⟩ := render_distinct c blocks2 n L (hoff.nodup_iff.2 hnodup)
    (fun k hk => hrange k (hoff.subset hk))
  rw [hr, hrq, sorted_perm_unique qs ps ((hq.trans hrec).trans hp.symm) hsq hs]

/-- C3, on the line `abcdefghijkl` with the blocks `[2, 4)` and `[7, 9)`:
four distinct offsets, and the middle region `L[3:6]` is left as it is. -/
theorem distinct_offsets_render_witness :
    ((recordedOffsets 1 [blockCols2To4, blockCols7To9]).Nodup
      ∧ ∀ k ∈ recordedOffsets 1 [blockCols2To4, blockCols7To9],
        0 ≤ k ∧ k ≤ (sampleLine.length : Int))
    ∧ ((∃ ps : List (Int × GoString),
        ps.Perm (recorded sampleAnsi 1 [blockCols2To4, blockCols7To9])
        ∧ (ps.map Prod.fst).Sorted (· < ·)
        ∧ renderLine sampleAnsi (groupLines [blockCols2To4, blockCols7To9]) 1 sampleLine
            = .done (interleave sampleLine 0 ps))
      ∧ (∀ blocks2 : List ProfileBlock, blocks2.Perm [blockCols2To4, blockCols7To9] →
          renderLine sampleAnsi (groupLines blocks2) 1 sampleLine
            = renderLine sampleAnsi (groupLines [blockCols2To4, blockCols7To9]) 1
                sampleLine)
      ∧ (∀ A B : ProfileBlock,
          [blockCols2To4, blockCols7To9].filter (touches 1) = [A, B] →
          A.StartLine = 1 ∧ A.EndLine = 1 → B.StartLine = 1 ∧ B.EndLine = 1 →
          1 ≤ A.StartCol ∧ A.StartCol < A.EndCol ∧ A.EndCol < B.StartCol
            ∧ B.StartCol < B.EndCol ∧ B.EndCol ≤ (sampleLine.length : Int) + 1 →
          renderLine sampleAnsi (groupLines [blockCols2To4, blockCols7To9]) 1 sampleLine
            = .done (slice sampleLine 0 (A.StartCol - 1).toNat ++ colorOf sampleAnsi A
                ++ slice sampleLine (A.StartCol - 1).toNat (A.EndCol - 1).toNat
                ++ sampleAnsi.Reset
                ++ slice sampleLine (A.EndCol - 1).toNat (B.StartCol - 1).toNat
                ++ colorOf sampleAnsi B
                ++ slice sampleLine (B.StartCol - 1).toNat (B.EndCol - 1).toNat
                ++ sampleAnsi.Reset
                ++ sampleLine.drop (B.EndCol - 1).toNat))) :=
  ⟨⟨by decide, by decide⟩,
    distinct_offsets_render sampleAnsi [blockCols2To4, blockCols7To9] 1 sampleLine
      (by decide) (by decide)⟩

/-! ## One block on a line, and two adjacent blocks -/

/-- C1. When a block with `StartLine = EndLine = n` and
`1 ≤ StartCol < EndCol ≤ len(L) + 1` is the only block that touches line `n`,
line `n` is rendered as
`L[0:StartCol-1] ++ colour ++ L[StartCol-1:EndCol-1] ++ reset ++ L[EndCol-1:]`,
the colour being the uncovered one for a hit count of 0 and the covered one
otherwise. -/
theorem single_block_render (c : Ansi) (blocks : List ProfileBlock) (blk : ProfileBlock)
    (n : Int) (L : GoString) (hstart : blk.StartLine = n) (hend : blk.EndLine = n)
    (hcol : 1 ≤ blk.StartCol ∧ blk.StartCol < blk.EndCol ∧ blk.EndCol ≤ L.length + 1)
    (honly : blocks.filter (touches n) = [blk]) :
    renderLine c (groupLines blocks) n L
      = .done (slice L 0 (blk.StartCol - 1).toNat
          ++ (if blk.Count = 0 then c.Uncover else c.Cover)
          ++ slice L (blk.StartCol - 1).toNat (blk.EndCol - 1).toNat
          ++ c.Reset
          ++ L.drop (blk.EndCol - 1).toNat) := by
  obtain ⟨h1, h2, h3⟩ := hcol
  have hrec : recorded c n blocks
      = [(blk.EndCol - 1, c.Reset), (blk.StartCol - 1, colorOf c blk)] := by
    rw [recorded_of_filter_eq c n blocks [blk] honly]
    simp [recorded, blockRefs, hstart, hend]
  have hoff : recordedOffsets n blocks = [blk.EndCol - 1, blk.StartCol - 1] := by
    rw [← recordedOffsets_eq c, hrec]
    rfl
  have hne : ¬ blk.EndCol - 1 = blk.StartCol - 1 := by omega
  have hne2 : ¬ blk.StartCol - 1 = blk.EndCol - 1 := by omega
  rw [renderLine_eq c blocks n L (by
    intro k hk
    rw [hoff] at hk
    simp only [List.mem_cons, List.mem_singleton, List.not_mem_nil, or_false] at hk
    rcases hk with rfl | rfl <;> constructor <;> omega)]
  rw [hoff, hrec, sortInts_pair _ _ (by omega)]
  simp only [List.map_cons, List.map_nil, interleave, accum_cons, accum_nil, if_neg hne,
    if_neg hne2, if_true, colorOf, List.nil_append, List.append_nil, List.append_assoc]

/-- C1, for the block with `StartCol = 5`, `EndCol = 10` and hit count 0 on the
line `abcdefghijkl`: the uncovered marker sits at byte offset 4, the reset at
byte offset 9 of the line, whose bytes are all kept. -/
theorem single_block_render_witness :
    (blockCols5To10.StartLine = 1 ∧ blockCols5To10.EndLine = 1
      ∧ (1 ≤ blockCols5To10.StartCol ∧ blockCols5To10.StartCol < blockCols5To10.EndCol
        ∧ blockCols5To10.EndCol ≤ (sampleLine.length : Int) + 1)
      ∧ [blockCols5To10].filter (touches 1) = [blockCols5To10])
    ∧ renderLine sampleAnsi (groupLines [blockCols5To10]) 1 sampleLine
      = .done (slice sampleLine 0 4 ++ sampleAnsi.Uncover ++ slice sampleLine 4 9
          ++ sampleAnsi.Reset ++ sampleLine.drop 9) :=
  ⟨⟨rfl, rfl, by decide, by decide⟩,
    single_block_render sampleAnsi [blockCols5To10] blockCols5To10 1 sampleLine rfl rfl
      (by decide) (by decide)⟩

theorem sortInts_adjacent (s m e : Int) (h1 : s < m) (h2 : m < e) :
    sortInts [m, s, e, m] = [s, m, m, e] := by
  have a1 : ¬ m ≤ s := not_le.2 h1
  have a2 : ¬ e ≤ m := not_le.2 h2
  have a3 : ¬ e ≤ s := not_le.2 (lt_trans h1 h2)
  have a4 : s ≤ m := h1.le
  have a5 : m ≤ e := h2.le
  simp [sortInts, List.insertionSort, List.orderedInsert, a1, a2, a3, a4, a5]

/-- What the code does for two adjacent single-line blocks `A = [s, m)` and
`B = [m, e)` that are alone on their line, `A` first in the profile: the
offset `m - 1` is recorded twice, and the marks accumulated there,
`reset ++ colour of B`, are spliced in once for each of the two records. -/
theorem adjacent_blocks_render (c : Ansi) (blocks : List ProfileBlock) (A B : ProfileBlock)
    (n : Int) (L : GoString) (hA : A.StartLine = n ∧ A.EndLine = n)
    (hB : B.StartLine = n ∧ B.EndLine = n) (hadj : A.EndCol = B.StartCol)
    (hcol : 1 ≤ A.StartCol ∧ A.StartCol < A.EndCol ∧ B.StartCol < B.EndCol
      ∧ B.EndCol ≤ L.length + 1)
    (honly : blocks.filter (touches n) = [A, B]) :
    renderLine c (groupLines blocks) n L
      = .done (slice L 0 (A.StartCol - 1).toNat ++ colorOf c A
          ++ slice L (A.StartCol - 1).toNat (A.EndCol - 1).toNat
          ++ (c.Reset ++ colorOf c B) ++ (c.Reset ++ colorOf c B)
          ++ slice L (A.EndCol - 1).toNat (B.EndCol - 1).toNat
          ++ c.Reset ++ L.drop (B.EndCol - 1).toNat) := by
  obtain ⟨h1, h2, h3, h4⟩ := hcol
  have hrec : recorded c n blocks
      = [(A.EndCol - 1, c.Reset), (A.StartCol - 1, colorOf c A),
         (B.EndCol - 1, c.Reset), (A.EndCol - 1, colorOf c B)] := by
    rw [recorded_of_filter_eq c n blocks [A, B] honly]
    simp [recorded, blockRefs, hA.1, hA.2, hB.1, hB.2, hadj]
  have hoff : recordedOffsets n blocks
      = [A.EndCol - 1, A.StartCol - 1, B.EndCol - 1, A.EndCol - 1] := by
    rw [← recordedOffsets_eq c, hrec]
    rfl
  have n1 : ¬ A.EndCol - 1 = A.StartCol - 1 := by omega
  have n2 : ¬ A.StartCol - 1 = A.EndCol - 1 := by omega
  have n3 : ¬ B.EndCol - 1 = A.StartCol - 1 := by omega
  have n4 : ¬ B.EndCol - 1 = A.EndCol - 1 := by omega
  have n5 : ¬ A.EndCol - 1 = B.EndCol - 1 := by omega
  have n6 : ¬ A.StartCol - 1 = B.EndCol - 1 := by omega
  rw [renderLine_eq c blocks n L (by
    intro k hk
    rw [hoff] at hk
    simp only [List.mem_cons, List.mem_singleton, List.not_mem_nil, or_false] at hk
    rcases hk with rfl | rfl | rfl | rfl <;> constructor <;> omega)]
  rw [hoff, hrec, sortInts_adjacent _ _ _ (by omega) (by omega)]
  simp only [List.map_cons, List.map_nil, interleave, accum_cons, accum_nil, if_neg n1,
    if_neg n2, if_neg n3, if_neg n4, if_neg n5, if_neg n6, if_true, slice_self,
    List.nil_append, List.append_nil, List.append_assoc]

/-- C2 at a failing input.  On the line `abcdefghijkl` with the adjacent blocks
`[2, 4)` (uncovered) and `[4, 6)` (covered), in this order and alone on the
line, the offset 3 is collected twice among the keys, and the accumulated
string `reset ++ covered` is spliced in twice; the rendering differs from
`L[0:1] ++ uncovered ++ L[1:3] ++ reset ++ covered ++ L[3:5] ++ reset ++ L[5:]`. -/
theorem adjacent_blocks_double_splice :
    (lineMarks sampleAnsi (groupLines [blockCols2To4, blockCols4To6]) 1).keys = [3, 1, 5, 3]
    ∧ renderLine sampleAnsi (groupLines [blockCols2To4, blockCols4To6]) 1 sampleLine
      = .done (slice sampleLine 0 1 ++ sampleAnsi.Uncover ++ slice sampleLine 1 3
          ++ (sampleAnsi.Reset ++ sampleAnsi.Cover) ++ (sampleAnsi.Reset ++ sampleAnsi.Cover)
          ++ slice sampleLine 3 5 ++ sampleAnsi.Reset ++ sampleLine.drop 5)
    ∧ renderLine sampleAnsi (groupLines [blockCols2To4, blockCols4To6]) 1 sampleLine
      ≠ .done (slice sampleLine 0 1 ++ sampleAnsi.Uncover ++ slice sampleLine 1 3
          ++ sampleAnsi.Reset ++ sampleAnsi.Cover
          ++ slice sampleLine 3 5 ++ sampleAnsi.Reset ++ sampleLine.drop 5) := by
  decide

/-! ## Offsets outside the line -/

theorem spliceList_neg (marks : Int → GoString) : ∀ (ks : List Int) (line : GoString),
    (∃ k ∈ ks, k < 0) → spliceList marks ks line = .panic := by
  intro ks
  induction ks with
  | nil => intro line h; obtain ⟨k, hk, _⟩ := h; simp at hk
  | cons k0 rest ih =>
    intro line h
    by_cases h0 : k0 < 0
    · have : ¬ (0 ≤ k0 ∧ k0 ≤ (line.length : Int)) := fun hh => absurd hh.1 (not_le.2 h0)
      simp [spliceList, spliceAt, this]
    · have hrest : ∃ k ∈ rest, k < 0 := by
        obtain ⟨k, hk, hneg⟩ := h
        rcases List.mem_cons.1 hk with rfl | hk
        · exact absurd hneg h0
        · exact ⟨k, hk, hneg⟩
      simp only [spliceList]
      cases spliceAt marks line k0 with
      | done l => exact ih l hrest
      | panic => rfl

theorem spliceList_beyond (marks : Int → GoString) (ks : List Int) (line : GoString)
    (hs : ks.Sorted (· ≥ ·)) (h : ∃ k ∈ ks, (line.length : Int) < k) :
    spliceList marks ks line = .panic := by
  cases ks with
  | nil => obtain ⟨k, hk, _⟩ := h; simp at hk
  | cons k0 rest =>
    have hs2 := List.sorted_cons.1 hs
    have h0 : (line.length : Int) < k0 := by
      obtain ⟨k, hk, hlt⟩ := h
      rcases List.mem_cons.1 hk with rfl | hk
      · exact hlt
      · exact lt_of_lt_of_le hlt (hs2.1 k hk)
    have : ¬ (0 ≤ k0 ∧ k0 ≤ (line.length : Int)) := fun hh => absurd hh.2 (not_le.2 h0)
    simp [spliceList, spliceAt, this]

/-- A recorded offset that is negative or greater than `len(L)` makes the
splice loop of that line panic, whatever the other offsets are. -/
theorem renderLine_panic (c : Ansi) (blocks : List ProfileBlock) (n : Int) (L : GoString)
    (hbad : ∃ k ∈ recordedOffsets n blocks, k < 0 ∨ (L.length : Int) < k) :
    renderLine c (groupLines blocks) n L = .panic := by
  obtain ⟨hkeys, _⟩ := lineMarks_eq c n blocks
  unfold renderLine
  simp only []
  rw [spliceLoop_eq_spliceList _ _ _ _ (le_refl _), List.take_length, hkeys,
    recordedOffsets_eq]
  have hmem : ∀ k, k ∈ (sortInts (recordedOffsets n blocks)).reverse
      ↔ k ∈ recordedOffsets n blocks := by
    intro k
    rw [List.mem_reverse]
    exact List.mem_insertionSort _
  obtain ⟨k, hk, hk2⟩ := hbad
  by_cases hbig : ∃ j ∈ recordedOffsets n blocks, (L.length : Int) < j
  · apply spliceList_beyond
    · have hs : (sortInts (recordedOffsets n blocks)).Sorted (· ≤ ·) :=
        List.sorted_insertionSort _ _
      exact List.pairwise_reverse.2 hs
    · obtain ⟨j, hj, hj2⟩ := hbig
      exact ⟨j, (hmem j).2 hj, hj2⟩
  · apply spliceList_neg
    rcases hk2 with hneg | hgt
    · exact ⟨k, (hmem k).2 hk, hneg⟩
    · exact absurd ⟨k, hk, hgt⟩ hbig

/-! ## The scanning loop -/

/-- What the scanning loop prints: after `out`, the renderings of the source
lines in order, up to the end of the source or to the first line whose splice
panics. -/
theorem scanLoop_spec (c : Ansi) (lines : LineMap) : ∀ (src : List GoString) (i : Int)
    (out : List GoString),
    ∃ emitted : List GoString,
      (scanLoop c lines i src out).stdout = out ++ emitted
      ∧ (∀ (j : Nat) (line : GoString), emitted[j]? = some line →
          ∃ L, src[j]? = some L ∧ renderLine c lines (i + j) L = .done line)
      ∧ (((scanLoop c lines i src out).outcome = .returned none
            ∧ emitted.length = src.length)
          ∨ ((scanLoop c lines i src out).outcome = .panicked
            ∧ ∃ L, src[emitted.length]? = some L
              ∧ renderLine c lines (i + emitted.length) L = .panic)) := by
  intro src
  induction src with
  | nil =>
    intro i out
    refine ⟨[], by simp [scanLoop], ?_, Or.inl ⟨rfl, rfl⟩⟩
    intro j line h
    simp at h
  | cons L rest ih =>
    intro i out
    cases hr : renderLine c lines i L with
    | done l =>
      obtain ⟨em, h1, h2, h3⟩ := ih (i + 1) (out ++ [l])
      have hstep : scanLoop c lines i (L :: rest) out
          = scanLoop c lines (i + 1) rest (out ++ [l]) := by
        simp only [scanLoop, hr]
      refine ⟨l :: em, ?_, ?_, ?_⟩
      · rw [hstep, h1]; simp
      · intro j line hj
        cases j with
        | zero =>
          simp only [List.getElem?_cons_zero, Option.some.injEq] at hj
          subst hj
          exact ⟨L, by simp, by simpa using hr⟩
        | succ j =>
          simp only [List.getElem?_cons_succ] at hj
          obtain ⟨L2, hL2, hr2⟩ := h2 j line hj
          refine ⟨L2, by simpa using hL2, ?_⟩
          rw [← hr2]
          congr 1
          push_cast
          ring
      · rw [hstep]
        rcases h3 with ⟨ho, hl⟩ | ⟨ho, L2, hL2, hr2⟩
        · exact Or.inl ⟨ho, by simp [hl]⟩
        · refine Or.inr ⟨ho, L2, by simpa using hL2, ?_⟩
          rw [← hr2]
          congr 1
          simp only [List.length_cons]
          push_cast
          ring
    | panic =>
      have hstep : scanLoop c lines i (L :: rest) out
          = { stdout := out, outcome := .panicked } := by
        simp only [scanLoop, hr]
      refine ⟨[], by rw [hstep]; simp, ?_, Or.inr ⟨by rw [hstep], L, by simp, by simpa using hr⟩⟩
      intro j line h
      simp at h

theorem showFile_spec (c : Ansi) (profile : Profile) (src : List GoString) :
    (∀ (j : Nat) (line : GoString), (showFile c (.ok src) profile).stdout[j]? = some line →
        ∃ L, src[j]? = some L
          ∧ renderLine c (groupLines profile.Blocks) (j + 1) L = .done line)
    ∧ (((showFile c (.ok src) profile).outcome = .returned none
          ∧ (showFile c (.ok src) profile).stdout.length = src.length)
        ∨ ((showFile c (.ok src) profile).outcome = .panicked
          ∧ ∃ L, src[(showFile c (.ok src) profile).stdout.length]? = some L
            ∧ renderLine c (groupLines profile.Blocks)
                ((showFile c (.ok src) profile).stdout.length + 1) L = .panic)) := by
  obtain ⟨em, h1, h2, h3⟩ := scanLoop_spec c (groupLines profile.Blocks) src 1 []
  have hs : (showFile c (.ok src) profile).stdout = em := by
    simpa [showFile] using h1
  have ho : (showFile c (.ok src) profile).outcome
      = (scanLoop c (groupLines profile.Blocks) 1 src []).outcome := rfl
  rw [hs, ho]
  refine ⟨?_, ?_⟩
  · intro j line hj
    obtain ⟨L, hL, hr⟩ := h2 j line hj
    exact ⟨L, hL, by rw [add_comm]; exact hr⟩
  · rcases h3 with h | ⟨h, L, hL, hr⟩
    · exact Or.inl h
    · exact Or.inr ⟨h, L, hL, by rw [add_comm]; exact hr⟩

theorem stdout_length_le (c : Ansi) (profile : Profile) (src : List GoString) :
    (showFile c (.ok src) profile).stdout.length ≤ src.length := by
  obtain ⟨_, h2⟩ := showFile_spec c profile src
  rcases h2 with ⟨_, h⟩ | ⟨_, L, hL, _⟩
  · exact le_of_eq h
  · by_contra hlt
    rw [List.getElem?_eq_none (by omega)] at hL
    simp at hL

theorem renderLine_untouched (c : Ansi) (blocks : List ProfileBlock) (n : Int) (L : GoString)
    (h : ∀ b ∈ blocks, touches n b = false) :
    renderLine c (groupLines blocks) n L = .done L := by
  have hoff : recordedOffsets n blocks = [] := by
    rw [← recordedOffsets_eq c, ← recorded_filter]
    have : blocks.filter (touches n) = [] := by
      rw [List.filter_eq_nil_iff]
      intro b hb
      simp [h b hb]
    rw [this]
    rfl
  rw [renderLine_eq c blocks n L (by rw [hoff]; intro k hk; simp at hk), hoff]
  simp [sortInts, interleave]

/-- The line printed for a source line is its rendering: when the offsets
recorded on all earlier lines lie within those lines, the splice loop reaches
line `k + 1` and what `renderLine` yields for it is the `k + 1`-th line of the
output. -/
theorem showFile_emits (c : Ansi) (profile : Profile) (src : List GoString) (k : Nat)
    (L rendered : GoString) (hL : src[k]? = some L)
    (hprev : ∀ (j : Nat) (Lj : GoString), j < k → src[j]? = some Lj →
      ∀ o ∈ recordedOffsets (j + 1) profile.Blocks, 0 ≤ o ∧ o ≤ (Lj.length : Int))
    (hr : renderLine c (groupLines profile.Blocks) (k + 1) L = .done rendered) :
    (showFile c (.ok src) profile).stdout[k]? = some rendered := by
  obtain ⟨h1, h2⟩ := showFile_spec c profile src
  have hk : k < src.length := by
    by_contra hlt
    rw [List.getElem?_eq_none (by omega)] at hL
    simp at hL
  have hlen : k < (showFile c (.ok src) profile).stdout.length := by
    rcases h2 with ⟨_, h⟩ | ⟨_, L2, hL2, hp⟩
    · omega
    · by_contra hle
      have hle2 : (showFile c (.ok src) profile).stdout.length ≤ k := by omega
      rcases Nat.lt_or_eq_of_le hle2 with hlt | heq
      · rw [renderLine_eq c profile.Blocks _ L2 (by
          have := hprev _ L2 hlt hL2
          simpa using this)] at hp
        simp at hp
      · rw [heq, hL] at hL2
        simp only [Option.some.injEq] at hL2
        subst hL2
        rw [heq, hr] at hp
        simp at hp
  obtain ⟨L2, hL2, hr2⟩ := h1 k _ (List.getElem?_eq_getElem hlen)
  rw [hL] at hL2
  simp only [Option.some.injEq] at hL2
  subst hL2
  rw [hr] at hr2
  rw [List.getElem?_eq_getElem hlen]
  simpa using hr2.symm

/-- C8 (as stated) fails: for the one-line source `abcdefghijkl` and a block
ending at column 20 of line 1, the offset 19 exceeds the length 12 of the
line; `showFile` prints nothing and ends in a panic, not with an error. -/
theorem malformed_offset_counterexample :
    (19 : Int) ∈ recordedOffsets 1 [blockEndCol20]
    ∧ (sampleLine.length : Int) < 19
    ∧ showFile sampleAnsi (.ok [sampleLine])
        { FileName := [], Mode := [], Blocks := [blockEndCol20] }
      = { stdout := [], outcome := .panicked } := by
  decide

/-- C8 (amended). When an offset recorded on some line of the source is
negative or greater than the length of that line, the splice of that line
performs the out-of-range slice and panics: `showFile` ends in a panic without
returning an error, and neither that line nor any later one is printed. -/
theorem malformed_offset_panics (c : Ansi) (profile : Profile) (src : List GoString)
    (j : Nat) (L : GoString) (hL : src[j]? = some L)
    (hbad : ∃ k ∈ recordedOffsets (j + 1) profile.Blocks, k < 0 ∨ (L.length : Int) < k) :
    renderLine c (groupLines profile.Blocks) (j + 1) L = .panic
    ∧ (showFile c (.ok src) profile).outcome = .panicked
    ∧ (showFile c (.ok src) profile).stdout.length ≤ j := by
  have hp := renderLine_panic c profile.Blocks (j + 1) L hbad
  obtain ⟨h1, h2⟩ := showFile_spec c profile src
  have hj : j < src.length := by
    by_contra hlt
    rw [List.getElem?_eq_none (by omega)] at hL
    simp at hL
  have hlen : (showFile c (.ok src) profile).stdout.length ≤ j := by
    by_contra hlt
    have hlt2 : j < (showFile c (.ok src) profile).stdout.length := by omega
    obtain ⟨L2, hL2, hr⟩ := h1 j _ (List.getElem?_eq_getElem hlt2)
    rw [hL] at hL2
    simp only [Option.some.injEq] at hL2
    subst hL2
    rw [hp] at hr
    simp at hr
  refine ⟨hp, ?_, hlen⟩
  rcases h2 with ⟨_, h⟩ | ⟨h, _⟩
  · omega
  · exact h

/-- C8 (amended), on the two-line source `abcdefghijkl`, `abcdefghijkl` with a
block ending at column 20 of line 1. -/
theorem malformed_offset_panics_witness :
    ([sampleLine, sampleLine][0]? = some sampleLine
      ∧ ∃ k ∈ recordedOffsets ((0 : Nat) + 1) [blockEndCol20],
          k < 0 ∨ (sampleLine.length : Int) < k)
    ∧ renderLine sampleAnsi (groupLines [blockEndCol20]) ((0 : Nat) + 1) sampleLine = .panic
    ∧ (showFile sampleAnsi (.ok [sampleLine, sampleLine])
        { FileName := [], Mode := [], Blocks := [blockEndCol20] }).outcome = .panicked
    ∧ (showFile sampleAnsi (.ok [sampleLine, sampleLine])
        { FileName := [], Mode := [], Blocks := [blockEndCol20] }).stdout.length ≤ 0 :=
  ⟨⟨rfl, 19, by decide, Or.inr (by decide)⟩,
    malformed_offset_panics sampleAnsi { FileName := [], Mode := [], Blocks := [blockEndCol20] }
      [sampleLine, sampleLine] 0 sampleLine rfl ⟨19, by decide, Or.inr (by decide)⟩⟩

/-- C10 (as stated) fails: for the source whose two lines are `abcdefghijkl`
and `abcdefghijkl` (the scanner yields both) with a single block, on line 1
and ending at column 20, line 2 is neither the start nor the end line of any
block, yet it is not emitted: the splice of line 1 panics and nothing is
printed. -/
theorem untouched_line_counterexample :
    (∀ b ∈ [blockEndCol20], touches 2 b = false)
    ∧ [sampleLine, sampleLine][1]? = some sampleLine
    ∧ (showFile sampleAnsi (.ok [sampleLine, sampleLine])
        { FileName := [], Mode := [], Blocks := [blockEndCol20] }).stdout[1]? = none
    ∧ showFile sampleAnsi (.ok [sampleLine, sampleLine])
        { FileName := [], Mode := [], Blocks := [blockEndCol20] }
      = { stdout := [], outcome := .panicked } := by
  decide

/-- C10 (amended). Here `src` is the sequence of lines the scanner yields from
the source.  The lines `showFile` emits are the renderings of the first
yielded lines, in order: the `k`-th emitted line is the rendering of the
`k`-th yielded line, byte-identical to it when its line number is neither the
start nor the end line of any block.  Every such untouched yielded line is
emitted provided all offsets recorded on the lines before it lie within those
lines; and when `showFile` returns, it has emitted one line for each yielded
line.  Nothing is said of source text the scanner does not yield (line
terminators, and everything from a line beyond the token limit on). -/
theorem untouched_lines_verbatim (c : Ansi) (profile : Profile) (src : List GoString) :
    (showFile c (.ok src) profile).stdout.length ≤ src.length
    ∧ (∀ (k : Nat) (line : GoString), (showFile c (.ok src) profile).stdout[k]? = some line →
        ∃ L, src[k]? = some L
          ∧ renderLine c (groupLines profile.Blocks) (k + 1) L = .done line
          ∧ ((∀ b ∈ profile.Blocks, touches (k + 1) b = false) → line = L))
    ∧ (∀ (k : Nat) (L : GoString), src[k]? = some L →
        (∀ b ∈ profile.Blocks, touches (k + 1) b = false) →
        (∀ (j : Nat) (Lj : GoString), j < k → src[j]? = some Lj →
          ∀ o ∈ recordedOffsets (j + 1) profile.Blocks, 0 ≤ o ∧ o ≤ (Lj.length : Int)) →
        (showFile c (.ok src) profile).stdout[k]? = some L)
    ∧ (∀ err, (showFile c (.ok src) profile).outcome = .returned err →
        err = none ∧ (showFile c (.ok src) profile).stdout.length = src.length) := by
  obtain ⟨h1, h2⟩ := showFile_spec c profile src
  refine ⟨stdout_length_le c profile src, ?_, ?_, ?_⟩
  · intro k line hk
    obtain ⟨L, hL, hr⟩ := h1 k line hk
    refine ⟨L, hL, hr, ?_⟩
    intro hun
    rw [renderLine_untouched c profile.Blocks (k + 1) L hun] at hr
    simpa using hr.symm
  · intro k L hL hun hprev
    exact showFile_emits c profile src k L L hL hprev
      (renderLine_untouched c profile.Blocks (k + 1) L hun)
  · intro err herr
    rcases h2 with ⟨ho, h⟩ | ⟨ho, _⟩
    · rw [ho] at herr
      simp only [Outcome.returned.injEq] at herr
      exact ⟨herr.symm, h⟩
    · rw [ho] at herr
      simp at herr

/-! ## Rounding to binary64 -/

theorem roundHalfEven_intCast (m : ℤ) : roundHalfEven (m : ℚ) = m := by
  unfold roundHalfEven
  simp

theorem roundHalfEven_le (s : ℚ) (M : ℤ) (h : s ≤ M) : roundHalfEven s ≤ M := by
  have hf : (⌊s⌋ : ℚ) ≤ s := Int.floor_le s
  have h1 : ⌊s⌋ ≤ M := by exact_mod_cast le_trans hf h
  have h2 : ¬ (s - ⌊s⌋ < 1 / 2) → ⌊s⌋ + 1 ≤ M := by
    intro hh
    have h3 : (⌊s⌋ : ℚ) < M := by linarith
    have h4 : ⌊s⌋ < M := by exact_mod_cast h3
    omega
  unfold roundHalfEven
  simp only []
  split_ifs with c1 c2 c3
  · exact h1
  · exact h2 c1
  · exact h1
  · exact h2 c1

theorem roundHalfEven_nonneg (s : ℚ) (h : 0 ≤ s) : 0 ≤ roundHalfEven s := by
  have h1 : 0 ≤ ⌊s⌋ := Int.floor_nonneg.2 h
  unfold roundHalfEven
  simp only []
  split_ifs <;> omega

/-- The value of `Float64.round` at a non-zero rational, from its pieces. -/
theorem round_of_ne_zero (q : ℚ) (hq : q ≠ 0) :
    Float64.round q
      = if (2 : ℚ) ^ 1024
            ≤ (roundHalfEven (|q| / 2 ^ max (Int.log 2 |q| - 52) (-1074)) : ℚ)
                * 2 ^ max (Int.log 2 |q| - 52) (-1074)
        then .inf (decide (q < 0))
        else .fin (if q < 0
          then -((roundHalfEven (|q| / 2 ^ max (Int.log 2 |q| - 52) (-1074)) : ℚ)
                * 2 ^ max (Int.log 2 |q| - 52) (-1074))
          else (roundHalfEven (|q| / 2 ^ max (Int.log 2 |q| - 52) (-1074)) : ℚ)
                * 2 ^ max (Int.log 2 |q| - 52) (-1074)) := by
  unfold Float64.round
  rw [if_neg hq]

theorem two_zpow_pos (e : ℤ) : (0 : ℚ) < 2 ^ e := zpow_pos (by norm_num) e

/-- A number `m * 2 ^ j` with fewer than 54 significant bits, below the
overflow threshold, is a binary64 value: rounding leaves it as it is. -/
theorem round_exact (m : ℤ) (j : ℕ) (hm : |m| < 2 ^ 53)
    (hq : |(m : ℚ) * 2 ^ j| < 2 ^ 1024) :
    Float64.round ((m : ℚ) * 2 ^ j) = .fin ((m : ℚ) * 2 ^ j) := by
  by_cases hm0 : m = 0
  · subst hm0
    simp [Float64.round]
  have hqne : (m : ℚ) * 2 ^ j ≠ 0 := by
    have : (m : ℚ) ≠ 0 := by exact_mod_cast hm0
    exact mul_ne_zero this (pow_ne_zero _ (by norm_num))
  have hapos : 0 < |(m : ℚ) * 2 ^ j| := abs_pos.2 hqne
  have h2j : (0 : ℚ) < 2 ^ j := pow_pos (by norm_num) j
  have habs : |(m : ℚ) * 2 ^ j| = ((|m| : ℤ) : ℚ) * 2 ^ j := by
    rw [abs_mul, abs_of_pos h2j]
    push_cast
    rfl
  have hlt : |(m : ℚ) * 2 ^ j| < ((2 : ℕ) : ℚ) ^ ((53 + j : ℕ) : ℤ) := by
    rw [habs, zpow_natCast, pow_add]
    have h53 : ((|m| : ℤ) : ℚ) < ((2 : ℕ) : ℚ) ^ 53 := by exact_mod_cast hm
    exact mul_lt_mul_of_pos_right h53 (by exact_mod_cast h2j)
  have hlog : Int.log 2 |(m : ℚ) * 2 ^ j| < ((53 + j : ℕ) : ℤ) :=
    (Int.lt_zpow_iff_log_lt (b := 2) (by norm_num) hapos).1 hlt
  have he : max (Int.log 2 |(m : ℚ) * 2 ^ j| - 52) (-1074) ≤ (j : ℤ) := by
    apply max_le
    · push_cast at hlog; omega
    · omega
  rw [round_of_ne_zero _ hqne]
  generalize max (Int.log 2 |(m : ℚ) * 2 ^ j| - 52) (-1074) = E at he ⊢
  obtain ⟨d, hd⟩ := Int.eq_ofNat_of_zero_le (sub_nonneg.2 he)
  have hEpos := two_zpow_pos E
  have hsplit : (2 : ℚ) ^ j = 2 ^ d * 2 ^ E := by
    rw [← zpow_natCast (2 : ℚ) d, ← zpow_add₀ (by norm_num : (2 : ℚ) ≠ 0), ← hd]
    simp
  have hs : |(m : ℚ) * 2 ^ j| / 2 ^ E = ((|m| * 2 ^ d : ℤ) : ℚ) := by
    rw [habs, hsplit, div_eq_iff hEpos.ne.symm]
    push_cast
    ring
  have hr : ((|m| * 2 ^ d : ℤ) : ℚ) * 2 ^ E = |(m : ℚ) * 2 ^ j| := by
    rw [← hs, div_mul_cancel₀ _ hEpos.ne.symm]
  rw [hs, roundHalfEven_intCast, hr, if_neg (not_le.2 hq)]
  congr 1
  by_cases hneg : (m : ℚ) * 2 ^ j < 0
  · rw [if_pos hneg, abs_of_neg hneg, neg_neg]
  · rw [if_neg hneg, abs_of_nonneg (not_lt.1 hneg)]

theorem round_intCast (n : ℤ) (hn : |n| < 2 ^ 53) : Float64.round (n : ℚ) = .fin n := by
  have h := round_exact n 0 hn (by
    simp only [pow_zero, mul_one]
    have h1 : |(n : ℚ)| < 2 ^ 53 := by exact_mod_cast hn
    exact lt_trans h1 (by norm_num))
  simpa using h

/-- Rounding never crosses 0 or 100. -/
theorem round_bounds (q : ℚ) (h0 : 0 ≤ q) (h100 : q ≤ 100) :
    ∃ r : ℚ, Float64.round q = .fin r ∧ 0 ≤ r ∧ r ≤ 100 := by
  by_cases hq : q = 0
  · subst hq
    exact ⟨0, by simp [Float64.round], le_refl _, by norm_num⟩
  have hpos : 0 < q := lt_of_le_of_ne h0 (Ne.symm hq)
  have habs : |q| = q := abs_of_pos hpos
  have hlog : Int.log 2 q < 7 := by
    apply (Int.lt_zpow_iff_log_lt (b := 2) (by norm_num) hpos).1
    have : ((2 : ℕ) : ℚ) ^ (7 : ℤ) = 128 := by norm_num
    rw [this]
    linarith
  have he : max (Int.log 2 q - 52) (-1074) ≤ -46 := by
    apply max_le <;> omega
  obtain ⟨d, hd⟩ := Int.eq_ofNat_of_zero_le (show (0 : ℤ) ≤ -max (Int.log 2 q - 52) (-1074) by omega)
  have hepos := two_zpow_pos (max (Int.log 2 q - 52) (-1074))
  have hinv : (2 : ℚ) ^ d * 2 ^ max (Int.log 2 q - 52) (-1074) = 1 := by
    rw [← zpow_natCast (2 : ℚ) d, ← zpow_add₀ (by norm_num : (2 : ℚ) ≠ 0), ← hd]
    simp
  have hs : q / 2 ^ max (Int.log 2 q - 52) (-1074) ≤ ((100 * 2 ^ d : ℤ) : ℚ) := by
    rw [div_le_iff₀ hepos]
    push_cast
    rw [mul_assoc, hinv]
    linarith
  have hm1 := roundHalfEven_le _ _ hs
  have hm0 := roundHalfEven_nonneg (q / 2 ^ max (Int.log 2 q - 52) (-1074))
    (div_nonneg h0 hepos.le)
  have hr100 : (roundHalfEven (q / 2 ^ max (Int.log 2 q - 52) (-1074)) : ℚ)
      * 2 ^ max (Int.log 2 q - 52) (-1074) ≤ 100 := by
    have h1 : (roundHalfEven (q / 2 ^ max (Int.log 2 q - 52) (-1074)) : ℚ)
        ≤ ((100 * 2 ^ d : ℤ) : ℚ) := by exact_mod_cast hm1
    calc (roundHalfEven (q / 2 ^ max (Int.log 2 q - 52) (-1074)) : ℚ)
          * 2 ^ max (Int.log 2 q - 52) (-1074)
        ≤ ((100 * 2 ^ d : ℤ) : ℚ) * 2 ^ max (Int.log 2 q - 52) (-1074) :=
          mul_le_mul_of_nonneg_right h1 hepos.le
      _ = 100 := by push_cast; rw [mul_assoc, hinv]; norm_num
  have hr0 : 0 ≤ (roundHalfEven (q / 2 ^ max (Int.log 2 q - 52) (-1074)) : ℚ)
      * 2 ^ max (Int.log 2 q - 52) (-1074) := by
    have h1 : (0 : ℚ) ≤ (roundHalfEven (q / 2 ^ max (Int.log 2 q - 52) (-1074)) : ℚ) := by
      exact_mod_cast hm0
    exact mul_nonneg h1 hepos.le
  refine ⟨_, ?_, hr0, hr100⟩
  rw [round_of_ne_zero q hq, habs, if_neg (not_lt.2 h0), if_neg]
  rw [not_le]
  exact lt_of_le_of_lt hr100 (by norm_num)

/-! ## `percentage` -/

theorem wrapInt_of_range (x : Int) (h1 : -2 ^ 63 ≤ x) (h2 : x < 2 ^ 63) : wrapInt x = x := by
  unfold wrapInt
  omega

theorem covered_le_total (blocks : List ProfileBlock) (hnn : ∀ b ∈ blocks, 0 ≤ b.NumStmt) :
    0 ≤ coveredStmts blocks ∧ coveredStmts blocks ≤ totalStmts blocks := by
  induction blocks with
  | nil => simp [coveredStmts, totalStmts]
  | cons b rest ih =>
    have hb := hnn b (List.mem_cons_self _ _)
    obtain ⟨h1, h2⟩ := ih (fun x hx => hnn x (List.mem_cons_of_mem _ hx))
    simp only [coveredStmts, totalStmts] at h1 h2 ⊢
    by_cases hc : b.Count > 0
    · simp only [List.filter_cons, hc, decide_True, if_true, List.map_cons, List.sum_cons]
      constructor <;> omega
    · simp only [List.filter_cons, hc, decide_False, List.map_cons, List.sum_cons]
      simp only [Bool.false_eq_true, if_false]
      constructor <;> omega

/-- Without wrap-around the loop of `percentage` adds `T` to `statements` and
`C` to `covered`. -/
theorem percentageLoop_eq : ∀ (blocks : List ProfileBlock) (s0 c0 : Int),
    (∀ b ∈ blocks, 0 ≤ b.NumStmt) → 0 ≤ c0 → c0 ≤ s0 → s0 + totalStmts blocks < 2 ^ 63 →
    percentageLoop blocks s0 c0 = (s0 + totalStmts blocks, c0 + coveredStmts blocks) := by
  intro blocks
  induction blocks with
  | nil => intro s0 c0 _ _ _ _; simp [percentageLoop, totalStmts, coveredStmts]
  | cons b rest ih =>
    intro s0 c0 hnn hc0 hcs hlt
    have hb := hnn b (List.mem_cons_self _ _)
    have hrest : ∀ x ∈ rest, 0 ≤ x.NumStmt := fun x hx => hnn x (List.mem_cons_of_mem _ hx)
    obtain ⟨h1, h2⟩ := covered_le_total rest hrest
    have hT : totalStmts (b :: rest) = b.NumStmt + totalStmts rest := by
      simp [totalStmts]
    rw [hT] at hlt ⊢
    have hw1 : wrapInt (s0 + b.NumStmt) = s0 + b.NumStmt :=
      wrapInt_of_range _ (by omega) (by omega)
    have hw2 : wrapInt (c0 + b.NumStmt) = c0 + b.NumStmt :=
      wrapInt_of_range _ (by omega) (by omega)
    unfold percentageLoop
    simp only [hw1, hw2]
    by_cases hc : b.Count > 0
    · have hC : coveredStmts (b :: rest) = b.NumStmt + coveredStmts rest := by
        simp [coveredStmts, List.filter_cons, hc]
      rw [if_pos hc, ih _ _ hrest (by omega) (by omega) (by omega), hC]
      congr 1 <;> ring
    · have hC : coveredStmts (b :: rest) = coveredStmts rest := by
        simp [coveredStmts, List.filter_cons, hc]
      rw [if_neg hc, ih _ _ hrest (by omega) (by omega) (by omega), hC]
      congr 1
      ring

/-- C5 (amended). For a profile whose statement counts are non-negative and
sum to `T` with `0 < T` and `100 * T < 2^53`, `percentage` returns the
binary64 value nearest to the exact quotient `100 * C / T`, and that value lies
in `[0, 100]`. -/
theorem percentage_in_range (p : Profile) (hnn : ∀ b ∈ p.Blocks, 0 ≤ b.NumStmt)
    (hT : 0 < totalStmts p.Blocks) (hbound : 100 * totalStmts p.Blocks < 2 ^ 53) :
    percentage p
      = Float64.round ((100 * coveredStmts p.Blocks : ℤ) / (totalStmts p.Blocks : ℤ))
    ∧ ∃ r : ℚ, percentage p = .fin r ∧ 0 ≤ r ∧ r ≤ 100 := by
  obtain ⟨hc0, hcT⟩ := covered_le_total p.Blocks hnn
  have hloop := percentageLoop_eq p.Blocks 0 0 hnn (le_refl _) (le_refl _) (by omega)
  simp only [zero_add] at hloop
  have hTq : (0 : ℚ) < (totalStmts p.Blocks : ℤ) := by exact_mod_cast hT
  have hCq : (0 : ℚ) ≤ (coveredStmts p.Blocks : ℤ) := by exact_mod_cast hc0
  have hCTq : ((coveredStmts p.Blocks : ℤ) : ℚ) ≤ (totalStmts p.Blocks : ℤ) := by
    exact_mod_cast hcT
  have h1 : Float64.ofInt (coveredStmts p.Blocks) = .fin (coveredStmts p.Blocks : ℤ) :=
    round_intCast _ (by rw [abs_of_nonneg hc0]; omega)
  have h2 : Float64.ofInt (totalStmts p.Blocks) = .fin (totalStmts p.Blocks : ℤ) :=
    round_intCast _ (by rw [abs_of_nonneg hT.le]; omega)
  have h3 : Float64.round ((100 : ℚ) * (coveredStmts p.Blocks : ℤ))
      = .fin ((100 * coveredStmts p.Blocks : ℤ) : ℚ) := by
    have := round_intCast (100 * coveredStmts p.Blocks)
      (by rw [abs_of_nonneg (by omega)]; omega)
    rw [← this]
    push_cast
    rfl
  have hp : percentage p
      = Float64.round ((100 * coveredStmts p.Blocks : ℤ) / (totalStmts p.Blocks : ℤ)) := by
    unfold percentage
    simp only [hloop, h1, h2, Float64.mul, Float64.div, h3]
    rw [if_neg hTq.ne.symm]
  refine ⟨hp, ?_⟩
  rw [hp]
  apply round_bounds
  · apply div_nonneg _ hTq.le
    push_cast
    linarith
  · rw [div_le_iff₀ hTq]
    push_cast
    linarith

/-- C5 (amended), for a block of 3 statements that was hit and a block of 1
statement that was not. -/
theorem percentage_in_range_witness :
    ((∀ b ∈ threeOfFourBlocks, 0 ≤ b.NumStmt) ∧ 0 < totalStmts threeOfFourBlocks
      ∧ 100 * totalStmts threeOfFourBlocks < 2 ^ 53)
    ∧ percentage { FileName := [], Mode := [], Blocks := threeOfFourBlocks }
      = Float64.round ((100 * coveredStmts threeOfFourBlocks : ℤ)
          / (totalStmts threeOfFourBlocks : ℤ))
    ∧ ∃ r : ℚ, percentage { FileName := [], Mode := [], Blocks := threeOfFourBlocks } = .fin r
        ∧ 0 ≤ r ∧ r ≤ 100 :=
  ⟨⟨by decide, by decide, by decide⟩,
    percentage_in_range { FileName := [], Mode := [], Blocks := threeOfFourBlocks }
      (by decide) (by decide) (by decide)⟩

/-- C9 (as stated) fails: for a profile without blocks nothing guards the
division; `percentage` divides zero by zero and returns NaN. -/
theorem percentage_empty_counterexample :
    percentageLoop [] 0 0 = (0, 0)
    ∧ percentage { FileName := [97, 46, 103, 111], Mode := [], Blocks := [] } = Float64.nan := by
  refine ⟨rfl, ?_⟩
  have h0 : Float64.round 0 = .fin 0 := by simp [Float64.round]
  simp [percentage, percentageLoop, Float64.ofInt, Float64.mul, Float64.div, h0]

/-- C9 (amended). For every profile with zero blocks both sums are 0 and
`percentage` returns the quotient of zero by zero, NaN, as an ordinary result:
no check precedes the division. -/
theorem percentage_empty (name mode : GoString) :
    percentage { FileName := name, Mode := mode, Blocks := [] } = Float64.nan := by
  have h0 : Float64.round 0 = .fin 0 := by simp [Float64.round]
  simp [percentage, percentageLoop, Float64.ofInt, Float64.mul, Float64.div, h0]

/-! ## `percentage` at large statement counts -/

theorem roundHalfEven_eval (s : ℚ) (f : ℤ) (h1 : (f : ℚ) ≤ s) (h2 : s < f + 1) :
    roundHalfEven s
      = if s - f < 1 / 2 then f
        else if 1 / 2 < s - f then f + 1
        else if f % 2 = 0 then f else f + 1 := by
  have hf : ⌊s⌋ = f := Int.floor_eq_iff.2 ⟨h1, h2⟩
  unfold roundHalfEven
  simp only [hf]

/-- The value of `Float64.round` at a positive rational with binary exponent
`L`, in the normal range. -/
theorem round_eval (q : ℚ) (L : ℤ) (hL1 : (2 : ℚ) ^ L ≤ q) (hL2 : q < 2 ^ (L + 1))
    (hL3 : -1022 ≤ L) (f : ℤ) (hf : roundHalfEven (q / 2 ^ (L - 52)) = f)
    (hov : (f : ℚ) * 2 ^ (L - 52) < 2 ^ 1024) :
    Float64.round q = .fin (f * 2 ^ (L - 52)) := by
  have hpos : 0 < q := lt_of_lt_of_le (two_zpow_pos L) hL1
  have hlog : Int.log 2 q = L := by
    have h1 : L ≤ Int.log 2 q :=
      (Int.zpow_le_iff_le_log (b := 2) (by norm_num) hpos).1 (by exact_mod_cast hL1)
    have h2 : Int.log 2 q < L + 1 :=
      (Int.lt_zpow_iff_log_lt (b := 2) (by norm_num) hpos).1 (by exact_mod_cast hL2)
    omega
  have he : max (L - 52) (-1074) = L - 52 := max_eq_left (by omega)
  rw [round_of_ne_zero q hpos.ne.symm, abs_of_pos hpos, hlog, he, hf,
    if_neg (not_le.2 hov), if_neg (not_lt.2 hpos.le)]

/-! The profile `overflowBlocks`: the sum of the statements wraps around. -/

theorem overflow_loop : percentageLoop overflowBlocks 0 0
    = (-9223372036854775808, 4611686018427387904) := by
  decide

theorem overflow_covered :
    Float64.round ((4611686018427387904 : ℤ) : ℚ) = .fin 4611686018427387904 := by
  have := round_exact 1 62 (by norm_num) (by norm_num)
  norm_num at this ⊢
  exact this

theorem overflow_statements :
    Float64.round ((-9223372036854775808 : ℤ) : ℚ) = .fin (-9223372036854775808) := by
  have := round_exact (-1) 63 (by norm_num) (by norm_num)
  norm_num at this ⊢
  exact this

theorem overflow_product :
    Float64.round ((100 : ℚ) * 4611686018427387904) = .fin 461168601842738790400 := by
  have := round_exact 25 64 (by norm_num) (by norm_num)
  norm_num at this ⊢
  exact this

theorem overflow_quotient :
    Float64.round ((461168601842738790400 : ℚ) / (-9223372036854775808)) = .fin (-50) := by
  have := round_exact (-25) 1 (by norm_num) (by norm_num)
  norm_num at this ⊢
  exact this

theorem overflow_step1 :
    percentage { FileName := [], Mode := [], Blocks := overflowBlocks }
      = Float64.div (Float64.mul (.fin 100) (Float64.ofInt 4611686018427387904))
          (Float64.ofInt (-9223372036854775808)) := by
  unfold percentage
  simp only [overflow_loop]

theorem overflow_step2 :
    Float64.div (Float64.mul (.fin 100) (Float64.ofInt 4611686018427387904))
        (Float64.ofInt (-9223372036854775808))
      = Float64.div (Float64.mul (.fin 100) (.fin 4611686018427387904))
          (.fin (-9223372036854775808)) := by
  simp only [Float64.ofInt, overflow_covered, overflow_statements]

theorem overflow_step3 :
    Float64.div (Float64.mul (.fin 100) (.fin 4611686018427387904))
        (.fin (-9223372036854775808))
      = Float64.div (.fin 461168601842738790400) (.fin (-9223372036854775808)) := by
  simp only [Float64.mul, overflow_product]

theorem overflow_step4 :
    Float64.div (.fin 461168601842738790400) (.fin (-9223372036854775808)) = .fin (-50) := by
  simp only [Float64.div]
  rw [if_neg (by norm_num), overflow_quotient]

/-! The profile `roundingBlocks`: the product `100 * float64(covered)` is
rounded up. -/

theorem rounding_loop : percentageLoop roundingBlocks 0 0
    = (360287970189643, 360287970189643) := by
  decide

theorem rounding_covered :
    Float64.round ((360287970189643 : ℤ) : ℚ) = .fin 360287970189643 := by
  have := round_intCast 360287970189643 (by norm_num)
  exact_mod_cast this

theorem rounding_product_mantissa :
    roundHalfEven ((100 : ℚ) * 360287970189643 / 2 ^ ((55 : ℤ) - 52))
      = 4503599627370538 := by
  rw [roundHalfEven_eval _ 4503599627370537 (by norm_num) (by norm_num)]
  norm_num

theorem rounding_product :
    Float64.round ((100 : ℚ) * 360287970189643) = .fin 36028797018964304 := by
  have := round_eval ((100 : ℚ) * 360287970189643) 55 (by norm_num) (by norm_num)
    (by norm_num) 4503599627370538 rounding_product_mantissa (by norm_num)
  rw [this]
  norm_num

theorem rounding_quotient_mantissa :
    roundHalfEven ((36028797018964304 : ℚ) / 360287970189643 / 2 ^ ((6 : ℤ) - 52))
      = 7036874417766401 := by
  rw [roundHalfEven_eval _ 7036874417766400 (by norm_num) (by norm_num)]
  norm_num

theorem rounding_quotient :
    Float64.round ((36028797018964304 : ℚ) / 360287970189643)
      = .fin (7036874417766401 / 70368744177664) := by
  have := round_eval ((36028797018964304 : ℚ) / 360287970189643) 6 (by norm_num)
    (by norm_num) (by norm_num) 7036874417766401 rounding_quotient_mantissa (by norm_num)
  rw [this]
  norm_num

theorem rounding_step1 :
    percentage { FileName := [], Mode := [], Blocks := roundingBlocks }
      = Float64.div (Float64.mul (.fin 100) (Float64.ofInt 360287970189643))
          (Float64.ofInt 360287970189643) := by
  unfold percentage
  simp only [rounding_loop]

theorem rounding_step2 :
    Float64.div (Float64.mul (.fin 100) (Float64.ofInt 360287970189643))
        (Float64.ofInt 360287970189643)
      = Float64.div (Float64.mul (.fin 100) (.fin 360287970189643))
          (.fin 360287970189643) := by
  simp only [Float64.ofInt, rounding_covered]

theorem rounding_step3 :
    Float64.div (Float64.mul (.fin 100) (.fin 360287970189643)) (.fin 360287970189643)
      = Float64.div (.fin 36028797018964304) (.fin 360287970189643) := by
  simp only [Float64.mul, rounding_product]

theorem rounding_step4 :
    Float64.div (.fin 36028797018964304) (.fin 360287970189643)
      = .fin (7036874417766401 / 70368744177664) := by
  simp only [Float64.div]
  rw [if_neg (by norm_num), rounding_quotient]

/-- C5 (as stated) fails, in two ways.  With two blocks of 2^62 statements,
the first one hit, `T = 2^63 > 0` and `C = 2^62`, but the `int` sum of the
statements wraps to -2^63 and `percentage` returns -50.  With a single hit
block of 360287970189643 statements nothing wraps and `100 * C / T = 100`, but
the product `100 * float64(C)` is rounded up and `percentage` returns
7036874417766401 / 2^46, which is greater than 100. -/
theorem percentage_counterexample :
    (totalStmts overflowBlocks = 2 ^ 63 ∧ coveredStmts overflowBlocks = 2 ^ 62
      ∧ percentage { FileName := [], Mode := [], Blocks := overflowBlocks } = .fin (-50))
    ∧ (totalStmts roundingBlocks = 360287970189643
      ∧ coveredStmts roundingBlocks = 360287970189643
      ∧ percentage { FileName := [], Mode := [], Blocks := roundingBlocks }
          = .fin (7036874417766401 / 70368744177664)
      ∧ (100 : ℚ) < 7036874417766401 / 70368744177664) :=
  ⟨⟨by decide, by decide,
      overflow_step1.trans (overflow_step2.trans (overflow_step3.trans overflow_step4))⟩,
    by decide, by decide,
    rounding_step1.trans (rounding_step2.trans (rounding_step3.trans rounding_step4)),
    by norm_num⟩


end Gocover
